import Mathlib

/-!
Verification development for the DML graph-fusion optimization pass
(`DmlGraphFusionTransformer.h`): `GetInitializerToPartitionMap`,
`CreateIDmlCompiledOperatorAndRegisterKernel`, `FusePartitionAndRegisterKernel`
and `DmlGraphFusionTransformer::ApplyImpl`.

The embedding models the host graph as a list of indexed nodes plus a
name-keyed constant-tensor store, partitions as produced by `BuildPartitions`
(root-merge representative index, DML / DML-graph flags, ordered external
input/output name lists, node indices), and the pass itself as a fold over
partition indices threading the graph, the kernel registry, the provider's
partition-kernel-prefix counter and the `modified` out-parameter.  The external
device compiler and the kernel registry's acceptance are oracles
(`compileOk` / `registerOk`); C++ exceptions (`ORT_THROW_IF_FAILED`) and error
statuses (`ORT_RETURN_IF_ERROR`) are modelled by an error component returned
next to the state reached at the throw point, since the C++ reference
parameters keep all mutations performed before the throw.  Traces of compile
calls and of extracted initializer names are recorded as observational fields;
they do not influence control flow.
-/

/-- `onnx::TensorProto`: a named constant tensor.  The payload is kept
abstract as a list of numbers; the pass only moves or copies whole tensors. -/
structure TensorProto where
  name : String
  payload : List Nat
deriving DecidableEq

/-- A graph node as far as the pass observes it: identifying name, operator
type, domain, the ordered input/output tensor-name lists and the assigned
execution provider type. -/
structure Node where
  name : String
  opType : String
  domain : String
  nodeInputs : List String
  nodeOutputs : List String
  execProviderType : String
deriving DecidableEq

/-- `onnxruntime::IndexedSubGraph::MetaDef` (the fused-node specification):
name, domain, version and the ordered external input/output name lists. -/
structure MetaDef where
  name : String
  domain : String
  sinceVersion : Nat
  inputs : List String
  outputs : List String
deriving DecidableEq

/-- `onnxruntime::IndexedSubGraph`: a meta definition plus the indices of the
nodes the fused region replaces. -/
structure IndexedSubGraph where
  metaDef : MetaDef
  nodes : List Nat
deriving DecidableEq

/-- A `GraphPartition` as consumed by the pass: the index of its root-merged
representative (a partition is a root iff this equals its own index in the
partition list), the `IsDmlPartition` / `IsDmlGraphPartition` flags, the
ordered external input and output name lists and the member node indices. -/
structure GraphPartition where
  rootMergedIndex : Nat
  isDmlPartition : Bool
  isDmlGraphPartition : Bool
  inputs : List String
  outputs : List String
  nodeIndices : List Nat
deriving DecidableEq

/-- The host `onnxruntime::Graph`: indexed nodes, the constant store
(initializers, keyed by `TensorProto.name`) and the next fresh node index. -/
structure Graph where
  nodes : List (Nat × Node)
  initializers : List TensorProto
  nextNodeIndex : Nat
deriving DecidableEq

/-- `Graph::GetInitializedTensor(name, tensor)`: look the constant up by name
in the store. -/
def Graph.getInitializedTensor (g : Graph) (name : String) : Option TensorProto :=
  g.initializers.find? (fun t => t.name == name)

/-- `Graph::ExtractInitializedTensor(name, value)`: move the named constant
out of the store; fails (error status) when the name is absent. -/
def Graph.extractInitializedTensor (g : Graph) (name : String) :
    Option (TensorProto × Graph) :=
  match g.getInitializedTensor name with
  | none => none
  | some t =>
      some (t, { g with initializers := g.initializers.filter (fun t' => t'.name != name) })

/-- Modelled from the spec: the fused-node name prefix constant
`DML_GRAPH_FUSION_NODE_NAME_PREFIX` declared in `DmlGraphFusionTransformer.h`
(header not among the extracted sources); the spec only requires it to be one
fixed string for the whole pass. -/
def fusionNodeNamePfx : String := "DmlFusedNode_"

/-- Modelled from the spec: the fixed fusion domain constant
`DML_GRAPH_FUSION_NODE_DOMAIN` declared in `DmlGraphFusionTransformer.h`
(header not among the extracted sources); the spec only requires it to be one
fixed domain string. -/
def fusionNodeDomain : String := "DmlFusedNodeDomain"

/-- `onnxruntime::kDmlExecutionProvider`. -/
def kDmlExecutionProvider : String := "DmlExecutionProvider"

/-- The placeholder node `Graph::BeginFuseSubGraph` creates from a meta
definition: op type and name are the meta definition's name, domain and
input/output lists are copied; the pass then immediately assigns the DML
execution provider (`fusedNode.SetExecutionProviderType`). -/
def MetaDef.toFusedNode (md : MetaDef) : Node :=
  { name := md.name
    opType := md.name
    domain := md.domain
    nodeInputs := md.inputs
    nodeOutputs := md.outputs
    execProviderType := kDmlExecutionProvider }

/-- `Graph::BeginFuseSubGraph`: insert the placeholder fused node under a
fresh index without removing the region's original nodes. -/
def Graph.beginFuseSubGraph (g : Graph) (sg : IndexedSubGraph) : Graph :=
  { g with
      nodes := g.nodes ++ [(g.nextNodeIndex, sg.metaDef.toFusedNode)]
      nextNodeIndex := g.nextNodeIndex + 1 }

/-- `Graph::FinalizeFuseSubGraph`: remove the region's original nodes (edges
are implicit in shared tensor names, so rewiring needs no extra step here). -/
def Graph.finalizeFuseSubGraph (g : Graph) (sg : IndexedSubGraph) : Graph :=
  { g with nodes := g.nodes.filter (fun p => !(sg.nodes.contains p.1)) }

/-- `std::unordered_map<std::string, onnx::TensorProto>` lookup (the
partition's private transferred-initializer map). -/
def assocLookup (m : List (String × TensorProto)) (k : String) : Option TensorProto :=
  (m.find? (fun e => e.1 == k)).map (fun e => e.2)

/-- `map[k] = v` on a string-keyed map: overwrite the entry if present,
append it otherwise. -/
def assocSet (m : List (String × TensorProto)) (k : String) (v : TensorProto) :
    List (String × TensorProto) :=
  match m with
  | [] => [(k, v)]
  | e :: rest => if e.1 == k then (k, v) :: rest else e :: assocSet rest k v

/-- Lookup in the initializer-to-partition multimap (tensor identity, which in
a name-keyed store is the tensor name, to the partition indices referencing
it). -/
def multiLookup (m : List (String × List Nat)) (k : String) : Option (List Nat) :=
  (m.find? (fun e => e.1 == k)).map (fun e => e.2)

/-- `initializerPartitionMap[tensor].push_back(partitionIndex)`. -/
def multiPush (m : List (String × List Nat)) (k : String) (i : Nat) :
    List (String × List Nat) :=
  match m with
  | [] => [(k, [i])]
  | e :: rest => if e.1 == k then (e.1, e.2 ++ [i]) :: rest else e :: multiPush rest k i

/-- Inner loop of `GetInitializerToPartitionMap`: for each input of a (root)
partition that resolves to an initialized tensor, record the partition index
under the tensor. -/
def addPartitionRefs (g : Graph) (i : Nat) :
    List String → List (String × List Nat) → List (String × List Nat)
  | [], m => m
  | input :: rest, m =>
      match g.getInitializedTensor input with
      | some t => addPartitionRefs g i rest (multiPush m t.name i)
      | none => addPartitionRefs g i rest m

/-- Outer loop of `GetInitializerToPartitionMap` over the partition indices,
skipping partitions merged into other partitions. -/
def buildInitPartMap (g : Graph) (ps : List GraphPartition) :
    List Nat → List (String × List Nat) → List (String × List Nat)
  | [], m => m
  | i :: rest, m =>
      match ps[i]? with
      | some p =>
          if p.rootMergedIndex = i then
            buildInitPartMap g ps rest (addPartitionRefs g i p.inputs m)
          else
            buildInitPartMap g ps rest m
      | none => buildInitPartMap g ps rest m

/-- `GetInitializerToPartitionMap(graphViewer, partitions)`. -/
def getInitializerToPartitionMap (g : Graph) (ps : List GraphPartition) :
    List (String × List Nat) :=
  buildInitPartMap g ps (List.range ps.length) []

/-- The kernel definition built by `KernelDefBuilder` (name, domain, version,
provider) for the fused node. -/
structure KernelDef where
  name : String
  domain : String
  sinceVersion : Nat
  provider : String
deriving DecidableEq

/-- A registered fused-kernel registry entry: the kernel definition plus what
the kernel factory closure captures by shared reference - the compiled
execution-plan operator (represented by the sub-graph descriptor it was
compiled from) and the transferred-initializer map. -/
structure KernelEntry where
  kdef : KernelDef
  artifact : IndexedSubGraph
  transferred : List (String × TensorProto)
deriving DecidableEq

/-- The ways the pass can fail: the release-build-unreachable
`assert(iter != initializerPartitionMap.end())` branch, a failing
`ExtractInitializedTensor` status, a failing `IDMLDevice1::CompileGraph`, or a
failing `KernelRegistry::Register`. -/
inductive PassErr where
  | assertFailed
  | extractFailed
  | compileFailed
  | registerFailed
deriving DecidableEq

/-- The kernel definition built on the fly by `KernelDefBuilder` (name,
domain, version, provider) for a fused sub-graph's meta definition. -/
def kdefOf (sg : IndexedSubGraph) : KernelDef :=
  { name := sg.metaDef.name
    domain := sg.metaDef.domain
    sinceVersion := sg.metaDef.sinceVersion
    provider := kDmlExecutionProvider }

/-- The registry entry registered for a fused sub-graph: the kernel definition
plus what the factory closure captures. -/
def entryOf (sg : IndexedSubGraph) (tm : List (String × TensorProto)) : KernelEntry :=
  { kdef := kdefOf sg, artifact := sg, transferred := tm }

/-- `CreateIDmlCompiledOperatorAndRegisterKernel`: build the DML graph
descriptor for the sub-graph, issue the single `CompileGraph` call to the
device compiler (oracle `compileOk`; descriptor building via
`GraphDescBuilder` and the D3D device objects are external collaborators and
are folded into the oracle's argument), then build the kernel definition from
the meta definition and register the factory closure (oracle `registerOk`).
The first component records the compile calls issued.  A thrown
`ORT_THROW_IF_FAILED` is the error component.  The kernel definition the
`KernelDefBuilder` produces from the meta definition is factored out as
`kdefOf`, the registered entry as `entryOf`. -/
def createCompiledOperatorAndRegisterKernel
    (compileOk : IndexedSubGraph → Bool) (registerOk : KernelDef → Bool)
    (subGraph : IndexedSubGraph) (transferred : List (String × TensorProto)) :
    List IndexedSubGraph × Except PassErr KernelEntry :=
  if compileOk subGraph then
    if registerOk (kdefOf subGraph) then
      ([subGraph], Except.ok (entryOf subGraph transferred))
    else
      ([subGraph], Except.error PassErr.registerFailed)
  else
    ([subGraph], Except.error PassErr.compileFailed)

/-- The meta definition `FusePartitionAndRegisterKernel` builds for a
partition: unique name `DML_GRAPH_FUSION_NODE_NAME_PREFIX + partitionKernelPfx
+ to_string(partitionIndex)`, the fixed fusion domain, version 1, and the
partition's external input/output lists copied in order. -/
def mkFusedMetaDef (partitionKernelPfx : String) (partitionIndex : Nat)
    (partition : GraphPartition) : MetaDef :=
  { name := fusionNodeNamePfx ++ partitionKernelPfx ++ Nat.repr partitionIndex
    domain := fusionNodeDomain
    sinceVersion := 1
    inputs := partition.inputs
    outputs := partition.outputs }

/-- The `IndexedSubGraph` built in `FusePartitionAndRegisterKernel`: the meta
definition plus the partition's node indices. -/
def mkFusedSubGraph (partitionKernelPfx : String) (partitionIndex : Nat)
    (partition : GraphPartition) : IndexedSubGraph :=
  { metaDef := mkFusedMetaDef partitionKernelPfx partitionIndex partition
    nodes := partition.nodeIndices }

/-- Result of one `FusePartitionAndRegisterKernel` invocation: the graph and
registry state reached (the graph keeps the placeholder when an exception
propagates out of step 2), the compile calls issued, the propagated error if
any, and the meta definition of the successfully fused node. -/
structure FuseOutcome where
  graph : Graph
  registry : List KernelEntry
  trace : List IndexedSubGraph
  err : Option PassErr
  fusedMeta : Option MetaDef
deriving DecidableEq

/-- `FusePartitionAndRegisterKernel`: build the meta definition and sub-graph,
`BeginFuseSubGraph` (insert the placeholder), run step 2
(`CreateIDmlCompiledOperatorAndRegisterKernel`), and on success
`FinalizeFuseSubGraph` (remove the region's original nodes).  A step-2
exception propagates with the placeholder still inserted: the function body
contains no rollback. -/
def fusePartitionAndRegisterKernel
    (compileOk : IndexedSubGraph → Bool) (registerOk : KernelDef → Bool)
    (partition : GraphPartition) (partitionIndex : Nat) (g : Graph)
    (registry : List KernelEntry) (partitionKernelPfx : String)
    (transferred : List (String × TensorProto)) : FuseOutcome :=
  let subGraph := mkFusedSubGraph partitionKernelPfx partitionIndex partition
  let g1 := g.beginFuseSubGraph subGraph
  match createCompiledOperatorAndRegisterKernel compileOk registerOk subGraph transferred with
  | (tr, Except.error e) =>
      { graph := g1, registry := registry, trace := tr, err := some e, fusedMeta := none }
  | (tr, Except.ok entry) =>
      { graph := g1.finalizeFuseSubGraph subGraph
        registry := registry ++ [entry]
        trace := tr
        err := none
        fusedMeta := some subGraph.metaDef }

/-- State threaded through `ApplyImpl`: the host graph, the caller's
`modified` out-parameter, the provider's partition-kernel-prefix counter, the
kernel registry, and observational records of the fused regions (partition
index, sub-graph, private transferred-initializer map), the compile calls
issued and the initializer names extracted from the host store. -/
structure PassState where
  graph : Graph
  modified : Bool
  counter : Nat
  registry : List KernelEntry
  fusedResults : List (Nat × IndexedSubGraph × List (String × TensorProto))
  compileTrace : List IndexedSubGraph
  extractTrace : List String
deriving DecidableEq

/-- The per-partition loop of `ApplyImpl` that populates
`transferredInitializerMap` (lines 311-333): for each partition input that
resolves to an initialized tensor, look its reference list up in the
initializer-to-partition map (the asserted-against failure branch is
`PassErr.assertFailed`); a tensor referenced by more than one partition is
copied into the map only when it is required by the kernel, while a tensor
referenced by this partition alone is extracted out of the host store into the
map. -/
def populateTransferredMap (requiredInit : List String)
    (initPartMap : List (String × List Nat)) :
    List String → Graph → List (String × TensorProto) → List String →
    (Graph × List (String × TensorProto) × List String) × Option PassErr
  | [], g, tm, extr => ((g, tm, extr), none)
  | input :: rest, g, tm, extr =>
      match g.getInitializedTensor input with
      | none => populateTransferredMap requiredInit initPartMap rest g tm extr
      | some tensor =>
          match multiLookup initPartMap tensor.name with
          | none => ((g, tm, extr), some PassErr.assertFailed)
          | some refs =>
              if 1 < refs.length then
                if requiredInit.contains input then
                  populateTransferredMap requiredInit initPartMap rest g
                    (assocSet tm input tensor) extr
                else
                  populateTransferredMap requiredInit initPartMap rest g tm extr
              else
                match g.extractInitializedTensor tensor.name with
                | none => ((g, tm, extr), some PassErr.extractFailed)
                | some (t, g') =>
                    populateTransferredMap requiredInit initPartMap rest g'
                      (assocSet tm input t) (extr ++ [tensor.name])

/-- The partition loop of `ApplyImpl` (lines 291-349): skip non-root or
non-DML partitions; for DML-graph partitions populate the private
transferred-initializer map, take the current partition-kernel-prefix counter
value and increment it, and fuse-and-register.  An error status or a
propagating exception ends the loop with the state reached so far. -/
def applyLoop (compileOk : IndexedSubGraph → Bool) (registerOk : KernelDef → Bool)
    (requiredInit : List String) (initPartMap : List (String × List Nat))
    (ps : List GraphPartition) :
    List Nat → PassState → PassState × Option PassErr
  | [], st => (st, none)
  | i :: rest, st =>
      match ps[i]? with
      | none => applyLoop compileOk registerOk requiredInit initPartMap ps rest st
      | some p =>
          if p.rootMergedIndex = i ∧ p.isDmlPartition = true then
            if p.isDmlGraphPartition = true then
              match populateTransferredMap requiredInit initPartMap p.inputs
                  st.graph [] [] with
              | ((g', _tm, extr), some e) =>
                  ({ st with graph := g', extractTrace := st.extractTrace ++ extr }, some e)
              | ((g', tm, extr), none) =>
                  let pfx := Nat.repr st.counter ++ "_"
                  let fo := fusePartitionAndRegisterKernel compileOk registerOk p i g'
                    st.registry pfx tm
                  match fo.err with
                  | some e =>
                      ({ st with
                          graph := fo.graph
                          counter := st.counter + 1
                          registry := fo.registry
                          compileTrace := st.compileTrace ++ fo.trace
                          extractTrace := st.extractTrace ++ extr }, some e)
                  | none =>
                      applyLoop compileOk registerOk requiredInit initPartMap ps rest
                        { st with
                            graph := fo.graph
                            counter := st.counter + 1
                            registry := fo.registry
                            fusedResults := st.fusedResults ++
                              [(i, mkFusedSubGraph pfx i p, tm)]
                            compileTrace := st.compileTrace ++ fo.trace
                            extractTrace := st.extractTrace ++ extr }
            else
              applyLoop compileOk registerOk requiredInit initPartMap ps rest st
          else
            applyLoop compileOk registerOk requiredInit initPartMap ps rest st

/-- `DmlGraphFusionTransformer::ApplyImpl`: build partitions and the required
initializer set (`BuildPartitions` lives in `GraphPartitioner.cpp` and is
passed here as a parameter), build the initializer-to-partition map from the
pre-pass graph view, then run the partition loop.  `modified`, the provider's
partition-kernel-prefix counter and the kernel registry enter through the
initial state. -/
def applyImpl (compileOk : IndexedSubGraph → Bool) (registerOk : KernelDef → Bool)
    (buildPartitions : Graph → List GraphPartition × List String)
    (g : Graph) (modified : Bool) (counter : Nat) (registry : List KernelEntry) :
    PassState × Option PassErr :=
  let ps := (buildPartitions g).1
  let requiredInit := (buildPartitions g).2
  let initPartMap := getInitializerToPartitionMap g ps
  applyLoop compileOk registerOk requiredInit initPartMap ps (List.range ps.length)
    { graph := g, modified := modified, counter := counter, registry := registry
      fusedResults := [], compileTrace := [], extractTrace := [] }

/-- Decimal digit list of a natural number, most significant first (the
character sequence `std::to_string` / `Nat.repr` produces). -/
def natDigits (n : Nat) : List Char :=
  if n < 10 then [Nat.digitChar n]
  else natDigits (n / 10) ++ [Nat.digitChar (n % 10)]
decreasing_by exact Nat.div_lt_self (by omega) (by omega)

theorem toDigitsCore_eq_natDigits :
    ∀ (n fuel : Nat) (ds : List Char), n < fuel →
      Nat.toDigitsCore 10 fuel n ds = natDigits n ++ ds := by
  intro n
  induction n using Nat.strong_induction_on with
  | _ n ih =>
    intro fuel ds hlt
    match fuel with
    | 0 => omega
    | fuel + 1 =>
      rw [Nat.toDigitsCore]
      by_cases hz : n / 10 = 0
      · have h10 : n < 10 := by
          by_contra hc
          have := Nat.div_lt_self (show 0 < n by omega) (show 1 < 10 by omega)
          omega
        have hmod : n % 10 = n := Nat.mod_eq_of_lt h10
        simp only [hz, if_pos]
        rw [natDigits, if_pos h10, hmod]
        rfl
      · have hge : ¬ n < 10 := fun hc => hz (Nat.div_eq_of_lt hc)
        have hdiv : n / 10 < n := Nat.div_lt_self (by omega) (by omega)
        simp only [hz, if_neg, ite_false]
        rw [ih (n / 10) hdiv fuel (Nat.digitChar (n % 10) :: ds) (by omega)]
        conv_rhs => rw [natDigits]
        rw [if_neg hge]
        simp

theorem repr_data_eq_natDigits (n : Nat) : (Nat.repr n).data = natDigits n := by
  show (Nat.toDigits 10 n).asString.data = natDigits n
  rw [Nat.toDigits, toDigitsCore_eq_natDigits n (n + 1) [] (by omega)]
  simp [List.asString]

/-- Numeric value of a digit character. -/
def digitVal (c : Char) : Nat := c.toNat - 48

theorem digitVal_digitChar (m : Nat) (h : m < 10) : digitVal (Nat.digitChar m) = m := by
  interval_cases m <;> decide

theorem digitChar_ne_underscore (m : Nat) (h : m < 10) : Nat.digitChar m ≠ '_' := by
  interval_cases m <;> decide

theorem natDigits_mem (c : Char) :
    ∀ n, c ∈ natDigits n → ∃ m, m < 10 ∧ c = Nat.digitChar m := by
  intro n
  induction n using Nat.strong_induction_on with
  | _ n ih =>
    intro hc
    rw [natDigits] at hc
    by_cases h10 : n < 10
    · rw [if_pos h10] at hc
      simp at hc
      exact ⟨n, h10, hc⟩
    · rw [if_neg h10] at hc
      rcases List.mem_append.mp hc with h1 | h2
      · exact ih (n / 10) (Nat.div_lt_self (by omega) (by omega)) h1
      · simp at h2
        exact ⟨n % 10, Nat.mod_lt _ (by omega), h2⟩

theorem underscore_not_mem_natDigits (n : Nat) : '_' ∉ natDigits n := by
  intro hc
  obtain ⟨m, hm, he⟩ := natDigits_mem '_' n hc
  exact digitChar_ne_underscore m hm he.symm

theorem foldl_natDigits (step : Nat → Char → Nat)
    (hstep : ∀ a c, step a c = a * 10 + digitVal c) :
    ∀ n a, List.foldl step a (natDigits n) = a * 10 ^ (natDigits n).length + n := by
  intro n
  induction n using Nat.strong_induction_on with
  | _ n ih =>
    intro a
    rw [natDigits]
    by_cases h10 : n < 10
    · rw [if_pos h10]
      simp [hstep, digitVal_digitChar n h10]
    · rw [if_neg h10]
      rw [List.foldl_append, ih (n / 10) (Nat.div_lt_self (by omega) (by omega)) a]
      simp only [List.foldl_cons, List.foldl_nil, List.length_append, List.length_cons,
        List.length_nil]
      rw [hstep, digitVal_digitChar (n % 10) (Nat.mod_lt _ (by omega))]
      have hpow : 10 ^ ((natDigits (n / 10)).length + (0 + 1)) =
          10 ^ (natDigits (n / 10)).length * 10 := by
        rw [Nat.zero_add, pow_succ]
      rw [hpow]
      have := Nat.div_add_mod n 10
      ring_nf
      omega

theorem natDigits_inj {n₁ n₂ : Nat} (h : natDigits n₁ = natDigits n₂) : n₁ = n₂ := by
  have h1 := foldl_natDigits (fun a c => a * 10 + digitVal c) (fun _ _ => rfl) n₁ 0
  have h2 := foldl_natDigits (fun a c => a * 10 + digitVal c) (fun _ _ => rfl) n₂ 0
  rw [h] at h1
  omega

theorem sepSplit :
    ∀ (d₁ d₂ e₁ e₂ : List Char), '_' ∉ d₁ → '_' ∉ d₂ →
      d₁ ++ '_' :: e₁ = d₂ ++ '_' :: e₂ → d₁ = d₂ ∧ e₁ = e₂ := by
  intro d₁
  induction d₁ with
  | nil =>
    intro d₂ e₁ e₂ _ h2 h
    match d₂ with
    | [] => simpa using h
    | b :: bs =>
      simp only [List.nil_append, List.cons_append, List.cons.injEq] at h
      exact absurd (h.1 ▸ List.mem_cons_self b bs) (h.1 ▸ h2)
  | cons a as ih =>
    intro d₂ e₁ e₂ h1 h2 h
    match d₂ with
    | [] =>
      simp only [List.cons_append, List.nil_append, List.cons.injEq] at h
      exact absurd (h.1 ▸ List.mem_cons_self a as) (fun hc => h1 (by simp [h.1]))
    | b :: bs =>
      simp only [List.cons_append, List.cons.injEq] at h
      obtain ⟨hab, hrest⟩ := h
      have := ih bs e₁ e₂ (fun hc => h1 (List.mem_cons_of_mem a hc))
        (fun hc => h2 (List.mem_cons_of_mem b hc)) hrest
      exact ⟨by rw [hab, this.1], this.2⟩

/-- The fused-node name as a function of the partition-kernel-prefix counter
value and the partition index: `<prefix><counter>_<partitionIndex>`. -/
def mkFusedName (c i : Nat) : String :=
  fusionNodeNamePfx ++ (Nat.repr c ++ "_") ++ Nat.repr i

theorem mkFusedName_data (c i : Nat) :
    (mkFusedName c i).data =
      fusionNodeNamePfx.data ++ (natDigits c ++ '_' :: natDigits i) := by
  have h0 : (mkFusedName c i).data =
      (fusionNodeNamePfx.data ++ ((Nat.repr c).data ++ ['_'])) ++ (Nat.repr i).data := rfl
  rw [h0, repr_data_eq_natDigits, repr_data_eq_natDigits]
  simp [List.append_assoc]

theorem mkFusedName_inj {c₁ i₁ c₂ i₂ : Nat}
    (h : mkFusedName c₁ i₁ = mkFusedName c₂ i₂) : c₁ = c₂ ∧ i₁ = i₂ := by
  have hd := congrArg String.data h
  rw [mkFusedName_data, mkFusedName_data] at hd
  have hmid := List.append_cancel_left hd
  have hsep := sepSplit (natDigits c₁) (natDigits c₂) (natDigits i₁) (natDigits i₂)
    (underscore_not_mem_natDigits c₁) (underscore_not_mem_natDigits c₂) hmid
  exact ⟨natDigits_inj hsep.1, natDigits_inj hsep.2⟩

theorem mkFusedMetaDef_name (c i : Nat) (p : GraphPartition) :
    (mkFusedMetaDef (Nat.repr c ++ "_") i p).name = mkFusedName c i := rfl

theorem getInit_name {g : Graph} {name : String} {t : TensorProto}
    (h : g.getInitializedTensor name = some t) : t.name = name := by
  have := List.find?_some h
  simpa using this

theorem find_store_filter_self (l : List TensorProto) (name : String) :
    (l.filter (fun t' => t'.name != name)).find? (fun t => t.name == name) = none := by
  rw [List.find?_eq_none]
  intro x hx
  rw [List.mem_filter] at hx
  simpa using hx.2

theorem find_store_filter_other (l : List TensorProto) (name n : String) (hne : n ≠ name) :
    (l.filter (fun t' => t'.name != name)).find? (fun t => t.name == n) =
      l.find? (fun t => t.name == n) := by
  induction l with
  | nil => rfl
  | cons t rest ih =>
    by_cases hn : t.name = n
    · have hkeep : (t.name != name) = true := by simp [hn, hne]
      rw [List.filter_cons, if_pos hkeep]
      rw [List.find?_cons, List.find?_cons]
      simp [hn, ih]
    · by_cases hk : (t.name != name) = true
      · rw [List.filter_cons, if_pos hk, List.find?_cons, List.find?_cons]
        simp only [show (t.name == n) = false by simp [hn]]
        exact ih
      · rw [List.filter_cons, if_neg hk, List.find?_cons]
        simp only [show (t.name == n) = false by simp [hn]]
        exact ih

/-- The store reached by removing `name`. -/
def Graph.removeInitializer (g : Graph) (name : String) : Graph :=
  { g with initializers := g.initializers.filter (fun t' => t'.name != name) }

theorem extract_eq {g : Graph} {name : String} {t : TensorProto}
    (h : g.getInitializedTensor name = some t) :
    g.extractInitializedTensor name = some (t, g.removeInitializer name) := by
  rw [Graph.extractInitializedTensor, h]
  rfl

theorem removeInitializer_get_self (g : Graph) (name : String) :
    (g.removeInitializer name).getInitializedTensor name = none :=
  find_store_filter_self g.initializers name

theorem removeInitializer_get_other (g : Graph) (name n : String) (hne : n ≠ name) :
    (g.removeInitializer name).getInitializedTensor n = g.getInitializedTensor n :=
  find_store_filter_other g.initializers name n hne

theorem removeInitializer_get_none {g : Graph} {n : String} (name : String)
    (h : g.getInitializedTensor n = none) :
    (g.removeInitializer name).getInitializedTensor n = none := by
  by_cases hne : n = name
  · rw [hne]
    exact removeInitializer_get_self g name
  · rw [removeInitializer_get_other g name n hne]
    exact h

theorem assocLookup_set_self (m : List (String × TensorProto)) (k : String)
    (v : TensorProto) : assocLookup (assocSet m k v) k = some v := by
  induction m with
  | nil => simp [assocSet, assocLookup]
  | cons e rest ih =>
    by_cases he : e.1 = k
    · simp [assocSet, assocLookup, he]
    · rw [assocSet, if_neg (by simp [he])]
      rw [assocLookup, List.find?_cons]
      simp only [show (e.1 == k) = false by simp [he]]
      exact ih

theorem assocLookup_set_other (m : List (String × TensorProto)) (k k' : String)
    (v : TensorProto) (hne : k' ≠ k) :
    assocLookup (assocSet m k v) k' = assocLookup m k' := by
  induction m with
  | nil => simp [assocSet, assocLookup, hne.symm]
  | cons e rest ih =>
    by_cases he : e.1 = k
    · rw [assocSet, if_pos (by simp [he])]
      rw [assocLookup, assocLookup, List.find?_cons, List.find?_cons]
      simp only [show (k == k') = false by simp [hne.symm],
        show (e.1 == k') = false by simp [he, hne.symm]]
    · rw [assocSet, if_neg (by simp [he])]
      rw [assocLookup, assocLookup, List.find?_cons, List.find?_cons]
      by_cases hk' : e.1 = k'
      · simp [hk']
      · simp only [show (e.1 == k') = false by simp [hk']]
        exact ih

theorem multiLookup_push_self (m : List (String × List Nat)) (k : String) (i : Nat) :
    multiLookup (multiPush m k i) k = some ((multiLookup m k).getD [] ++ [i]) := by
  induction m with
  | nil => simp [multiPush, multiLookup]
  | cons e rest ih =>
    by_cases he : e.1 = k
    · rw [multiPush, if_pos (by simp [he])]
      rw [multiLookup, multiLookup, List.find?_cons, List.find?_cons]
      simp [he]
    · rw [multiPush, if_neg (by simp [he])]
      rw [multiLookup, multiLookup, List.find?_cons, List.find?_cons]
      simp only [show (e.1 == k) = false by simp [he]]
      exact ih

theorem multiLookup_push_other (m : List (String × List Nat)) (k k' : String) (i : Nat)
    (hne : k' ≠ k) : multiLookup (multiPush m k i) k' = multiLookup m k' := by
  induction m with
  | nil => simp [multiPush, multiLookup, hne.symm]
  | cons e rest ih =>
    by_cases he : e.1 = k
    · rw [multiPush, if_pos (by simp [he])]
      rw [multiLookup, multiLookup, List.find?_cons, List.find?_cons]
      by_cases hk' : e.1 = k'
      · exact absurd (hk'.symm.trans he) hne
      · simp only [show (e.1 == k') = false by simp [hk']]
    · rw [multiPush, if_neg (by simp [he])]
      rw [multiLookup, multiLookup, List.find?_cons, List.find?_cons]
      by_cases hk' : e.1 = k'
      · simp [hk']
      · simp only [show (e.1 == k') = false by simp [hk']]
        exact ih

/-- Number of inputs in `inputs` that resolve (in graph `g`) to the
initialized tensor named `name`; this is how often
`GetInitializerToPartitionMap` records a referencing partition for that
tensor per partition. -/
def countRefs (g : Graph) (inputs : List String) (name : String) : Nat :=
  (inputs.filter (fun s =>
    match g.getInitializedTensor s with
    | some t => t.name == name
    | none => false)).length

/-- The reference list the initializer-to-partition map ends up holding for
tensor `name`: for each root partition index in order, its index replicated
once per resolving input occurrence. -/
def refsOf (g : Graph) (ps : List GraphPartition) (name : String) :
    List Nat → List Nat
  | [] => []
  | i :: rest =>
      (match ps[i]? with
       | some p =>
           if p.rootMergedIndex = i then
             List.replicate (countRefs g p.inputs name) i
           else []
       | none => []) ++ refsOf g ps name rest

theorem addPartitionRefs_lookup (g : Graph) (i : Nat) (name : String) :
    ∀ (inputs : List String) (m : List (String × List Nat)),
      multiLookup (addPartitionRefs g i inputs m) name =
        match multiLookup m name with
        | none =>
            if countRefs g inputs name = 0 then none
            else some (List.replicate (countRefs g inputs name) i)
        | some l => some (l ++ List.replicate (countRefs g inputs name) i) := by
  intro inputs
  induction inputs with
  | nil =>
    intro m
    simp only [addPartitionRefs, countRefs, List.filter_nil, List.length_nil,
      List.replicate_zero, List.append_nil]
    match h : multiLookup m name with
    | none => simp
    | some l => simp
  | cons s rest ih =>
    intro m
    rw [addPartitionRefs]
    match hg : g.getInitializedTensor s with
    | none =>
        have hcnt : countRefs g (s :: rest) name = countRefs g rest name := by
          rw [countRefs, countRefs, List.filter_cons, hg]
          simp
        rw [hcnt]
        exact ih m
    | some t =>
        by_cases htn : t.name = name
        · have hcnt : countRefs g (s :: rest) name = countRefs g rest name + 1 := by
            rw [countRefs, countRefs, List.filter_cons, hg]
            simp [htn]
          rw [hcnt, ih (multiPush m t.name i), htn, multiLookup_push_self]
          match hm : multiLookup m name with
          | none =>
              simp only [hm, Option.getD_none, List.nil_append]
              rw [if_neg (by omega)]
              simp [List.replicate_succ]
          | some l =>
              simp only [hm, Option.getD_some]
              rw [List.append_assoc]
              simp [List.replicate_succ]
        · have hcnt : countRefs g (s :: rest) name = countRefs g rest name := by
            rw [countRefs, countRefs, List.filter_cons, hg]
            simp [htn]
          rw [hcnt, ih (multiPush m t.name i),
            multiLookup_push_other m t.name name i (fun h => htn h.symm)]

theorem buildInitPartMap_lookup (g : Graph) (ps : List GraphPartition) (name : String) :
    ∀ (idxs : List Nat) (m : List (String × List Nat)),
      multiLookup (buildInitPartMap g ps idxs m) name =
        match multiLookup m name with
        | none =>
            if refsOf g ps name idxs = [] then none else some (refsOf g ps name idxs)
        | some l => some (l ++ refsOf g ps name idxs) := by
  intro idxs
  induction idxs with
  | nil =>
    intro m
    simp only [buildInitPartMap, refsOf]
    match h : multiLookup m name with
    | none => simp
    | some l => simp
  | cons i rest ih =>
    intro m
    rw [buildInitPartMap, refsOf]
    cases hp : ps[i]? with
    | none =>
        simp only [List.nil_append]
        exact ih m
    | some p =>
        by_cases hroot : p.rootMergedIndex = i
        · simp only [if_pos hroot]
          rw [ih (addPartitionRefs g i p.inputs m), addPartitionRefs_lookup]
          cases hm : multiLookup m name with
          | none =>
              by_cases hc : countRefs g p.inputs name = 0
              · simp [hc]
              · have hne : List.replicate (countRefs g p.inputs name) i ++
                    refsOf g ps name rest ≠ [] := by
                  simp [hc]
                simp only [if_neg hc, if_neg hne]
          | some l =>
              simp only [List.append_assoc]
        · simp only [if_neg hroot, List.nil_append]
          exact ih m

theorem initPartMap_lookup (g : Graph) (ps : List GraphPartition) (name : String) :
    multiLookup (getInitializerToPartitionMap g ps) name =
      if refsOf g ps name (List.range ps.length) = [] then none
      else some (refsOf g ps name (List.range ps.length)) := by
  rw [getInitializerToPartitionMap, buildInitPartMap_lookup]
  rfl

theorem refsOf_mem (g : Graph) (ps : List GraphPartition) (name : String) :
    ∀ (idxs : List Nat) (x : Nat), x ∈ refsOf g ps name idxs →
      x ∈ idxs ∧ ∃ p, ps[x]? = some p ∧ p.rootMergedIndex = x ∧
        0 < countRefs g p.inputs name := by
  intro idxs
  induction idxs with
  | nil => intro x hx; simp [refsOf] at hx
  | cons i rest ih =>
    intro x hx
    rw [refsOf] at hx
    rcases List.mem_append.mp hx with h1 | h2
    · cases hp : ps[i]? with
      | none => rw [hp] at h1; simp at h1
      | some p =>
          by_cases hroot : p.rootMergedIndex = i
          · simp only [hp, if_pos hroot] at h1
            obtain ⟨hc, hxi⟩ := List.mem_replicate.mp h1
            rw [hxi]
            exact ⟨List.mem_cons_self i rest, p, hp, hroot, by omega⟩
          · simp only [hp, if_neg hroot] at h1
            simp at h1
    · obtain ⟨hmem, hrest⟩ := ih x h2
      exact ⟨List.mem_cons_of_mem i hmem, hrest⟩

theorem refsOf_mem_of (g : Graph) (ps : List GraphPartition) (name : String)
    {i : Nat} {p : GraphPartition} (hp : ps[i]? = some p)
    (hroot : p.rootMergedIndex = i) (hc : 0 < countRefs g p.inputs name) :
    ∀ (idxs : List Nat), i ∈ idxs → i ∈ refsOf g ps name idxs := by
  intro idxs
  induction idxs with
  | nil => intro h; simp at h
  | cons j rest ih =>
    intro h
    rw [refsOf]
    rcases List.mem_cons.mp h with hji | hmem
    · subst hji
      apply List.mem_append.mpr
      left
      simp only [hp, if_pos hroot]
      exact List.mem_replicate.mpr ⟨by omega, rfl⟩
    · exact List.mem_append.mpr (Or.inr (ih hmem))

theorem refsOf_count_le (g : Graph) (ps : List GraphPartition) (name : String)
    {i : Nat} {p : GraphPartition} (hp : ps[i]? = some p)
    (hroot : p.rootMergedIndex = i) :
    ∀ (idxs : List Nat), i ∈ idxs →
      countRefs g p.inputs name ≤ (refsOf g ps name idxs).length := by
  intro idxs
  induction idxs with
  | nil => intro h; simp at h
  | cons j rest ih =>
    intro h
    rw [refsOf, List.length_append]
    rcases List.mem_cons.mp h with hji | hmem
    · subst hji
      simp only [hp, if_pos hroot, List.length_replicate]
      omega
    · have := ih hmem
      omega

theorem countRefs_eq_count (g : Graph) (name : String) {t0 : TensorProto}
    (hname : g.getInitializedTensor name = some t0) :
    ∀ inputs : List String, countRefs g inputs name = inputs.count name := by
  intro inputs
  induction inputs with
  | nil => rfl
  | cons s rest ih =>
    by_cases hs : s = name
    · subst hs
      have ht : (t0.name == s) = true := by simp [getInit_name hname]
      simp only [countRefs, List.filter_cons, hname, ht, if_true, List.length_cons,
        List.count_cons, beq_self_eq_true]
      rw [countRefs] at ih
      omega
    · have hpred :
          (match g.getInitializedTensor s with
           | some t => t.name == name
           | none => false) = false := by
        cases hg : g.getInitializedTensor s with
        | none => rfl
        | some t =>
            have := getInit_name hg
            simp [this, hs]
      have hsn : (s == name) = false := by simp [hs]
      simp only [countRefs, List.filter_cons, hpred, Bool.false_eq_true, if_false,
        List.count_cons, hsn]
      rw [countRefs] at ih
      simpa using ih

theorem removeInitializer_le (g : Graph) (name : String) :
    ∀ (n : String) (t : TensorProto),
      (g.removeInitializer name).getInitializedTensor n = some t →
      g.getInitializedTensor n = some t := by
  intro n t h
  by_cases hn : n = name
  · rw [hn, removeInitializer_get_self] at h
    exact absurd h (by simp)
  · rw [removeInitializer_get_other g name n hn] at h
    exact h

theorem countRefs_cons_zero {g : Graph} {s : String} {rest : List String} {name : String}
    (h : countRefs g (s :: rest) name = 0) :
    (match g.getInitializedTensor s with
     | some t => t.name == name
     | none => false) = false ∧ countRefs g rest name = 0 := by
  rw [countRefs, List.filter_cons] at h
  by_cases hp : (match g.getInitializedTensor s with
      | some t => t.name == name
      | none => false) = true
  · rw [if_pos hp] at h
    simp at h
  · rw [if_neg hp] at h
    exact ⟨by simpa using hp, h⟩

theorem pop_storele (req : List String) (m : List (String × List Nat)) :
    ∀ (inputs : List String) (g : Graph) (tm : List (String × TensorProto))
      (extr : List String) (n : String) (t : TensorProto),
      (populateTransferredMap req m inputs g tm extr).1.1.getInitializedTensor n = some t →
      g.getInitializedTensor n = some t := by
  intro inputs
  induction inputs with
  | nil => intro g tm extr n t h; exact h
  | cons s rest ih =>
    intro g tm extr n t h
    rw [populateTransferredMap] at h
    cases hg : g.getInitializedTensor s with
    | none =>
        simp only [hg] at h
        exact ih g tm extr n t h
    | some tensor =>
        simp only [hg] at h
        cases hm : multiLookup m tensor.name with
        | none => simp only [hm] at h; exact h
        | some refs =>
            simp only [hm] at h
            by_cases hlen : 1 < refs.length
            · rw [if_pos hlen] at h
              by_cases hreq : req.contains s = true
              · rw [if_pos hreq] at h
                exact ih g _ extr n t h
              · rw [if_neg hreq] at h
                exact ih g tm extr n t h
            · rw [if_neg hlen] at h
              have htn : tensor.name = s := getInit_name hg
              rw [htn] at h
              simp only [extract_eq hg] at h
              have := ih _ _ _ n t h
              exact removeInitializer_le g s n t this

theorem pop_absent (req : List String) (m : List (String × List Nat)) :
    ∀ (inputs : List String) (g : Graph) (tm : List (String × TensorProto))
      (extr : List String) (n : String),
      g.getInitializedTensor n = none →
      (populateTransferredMap req m inputs g tm extr).1.1.getInitializedTensor n = none ∧
      assocLookup (populateTransferredMap req m inputs g tm extr).1.2.1 n =
        assocLookup tm n := by
  intro inputs
  induction inputs with
  | nil => intro g tm extr n h; exact ⟨h, rfl⟩
  | cons s rest ih =>
    intro g tm extr n h
    rw [populateTransferredMap]
    cases hg : g.getInitializedTensor s with
    | none => exact ih g tm extr n h
    | some tensor =>
        have hsn : n ≠ s := fun he => by rw [he, hg] at h; exact Option.noConfusion h
        simp only []
        cases hm : multiLookup m tensor.name with
        | none => exact ⟨h, rfl⟩
        | some refs =>
            simp only []
            by_cases hlen : 1 < refs.length
            · rw [if_pos hlen]
              by_cases hreq : req.contains s = true
              · rw [if_pos hreq]
                have := ih g (assocSet tm s tensor) extr n h
                rw [assocLookup_set_other tm s n tensor hsn] at this
                exact this
              · rw [if_neg hreq]
                exact ih g tm extr n h
            · rw [if_neg hlen]
              have htn : tensor.name = s := getInit_name hg
              rw [htn]
              simp only [extract_eq hg]
              have hg' : (g.removeInitializer s).getInitializedTensor n = none :=
                removeInitializer_get_none s h
              have := ih (g.removeInitializer s) (assocSet tm s tensor) (extr ++ [s]) n hg'
              rw [assocLookup_set_other tm s n tensor hsn] at this
              exact this

theorem pop_notmem (req : List String) (m : List (String × List Nat)) :
    ∀ (inputs : List String) (g : Graph) (tm : List (String × TensorProto))
      (extr : List String) (n : String),
      n ∉ inputs →
      (populateTransferredMap req m inputs g tm extr).1.1.getInitializedTensor n =
        g.getInitializedTensor n ∧
      assocLookup (populateTransferredMap req m inputs g tm extr).1.2.1 n =
        assocLookup tm n := by
  intro inputs
  induction inputs with
  | nil => intro g tm extr n _; exact ⟨rfl, rfl⟩
  | cons s rest ih =>
    intro g tm extr n hn
    have hns : n ≠ s := fun he => hn (he ▸ List.mem_cons_self s rest)
    have hnr : n ∉ rest := fun he => hn (List.mem_cons_of_mem s he)
    rw [populateTransferredMap]
    cases hg : g.getInitializedTensor s with
    | none => exact ih g tm extr n hnr
    | some tensor =>
        simp only []
        cases hm : multiLookup m tensor.name with
        | none => exact ⟨rfl, rfl⟩
        | some refs =>
            simp only []
            by_cases hlen : 1 < refs.length
            · rw [if_pos hlen]
              by_cases hreq : req.contains s = true
              · rw [if_pos hreq]
                have := ih g (assocSet tm s tensor) extr n hnr
                rw [assocLookup_set_other tm s n tensor hns] at this
                exact this
              · rw [if_neg hreq]
                exact ih g tm extr n hnr
            · rw [if_neg hlen]
              have htn : tensor.name = s := getInit_name hg
              rw [htn]
              simp only [extract_eq hg]
              have := ih (g.removeInitializer s) (assocSet tm s tensor) (extr ++ [s]) n hnr
              rw [assocLookup_set_other tm s n tensor hns,
                removeInitializer_get_other g s n hns] at this
              exact this

/-- The constant store of `g'` is contained (name and value) in that of `g`:
the pass only ever removes initializers, never adds or changes them. -/
def StoreLe (g' g : Graph) : Prop :=
  ∀ (n : String) (t : TensorProto),
    g'.getInitializedTensor n = some t → g.getInitializedTensor n = some t

theorem pop_cnt0 (req : List String) (m : List (String × List Nat)) (g0 : Graph)
    (name : String) :
    ∀ (inputs : List String) (g : Graph) (tm : List (String × TensorProto))
      (extr : List String),
      StoreLe g g0 →
      countRefs g0 inputs name = 0 →
      (populateTransferredMap req m inputs g tm extr).1.1.getInitializedTensor name =
        g.getInitializedTensor name := by
  intro inputs
  induction inputs with
  | nil => intro g tm extr _ _; rfl
  | cons s rest ih =>
    intro g tm extr hle hc
    obtain ⟨hpred, hrest⟩ := countRefs_cons_zero hc
    rw [populateTransferredMap]
    cases hg : g.getInitializedTensor s with
    | none => exact ih g tm extr hle hrest
    | some tensor =>
        have htn : tensor.name = s := getInit_name hg
        have hg0 : g0.getInitializedTensor s = some tensor := hle s tensor hg
        rw [hg0] at hpred
        have hne : tensor.name ≠ name := by simpa using hpred
        have hsname : name ≠ s := fun he => hne (by rw [htn, he])
        simp only []
        cases hm : multiLookup m tensor.name with
        | none => rfl
        | some refs =>
            simp only []
            by_cases hlen : 1 < refs.length
            · rw [if_pos hlen]
              by_cases hreq : req.contains s = true
              · rw [if_pos hreq]
                exact ih g (assocSet tm s tensor) extr hle hrest
              · rw [if_neg hreq]
                exact ih g tm extr hle hrest
            · rw [if_neg hlen, htn]
              simp only [extract_eq hg]
              have hle' : StoreLe (g.removeInitializer s) g0 := fun n' t' h' =>
                hle n' t' (removeInitializer_le g s n' t' h')
              rw [ih (g.removeInitializer s) (assocSet tm s tensor) (extr ++ [s]) hle' hrest]
              exact removeInitializer_get_other g s name hsname

theorem pop_single (req : List String) (m : List (String × List Nat)) (name : String)
    (t0 : TensorProto) (L : List Nat) (hmap : multiLookup m name = some L)
    (hL : ¬ 1 < L.length) :
    ∀ (inputs : List String) (g : Graph) (tm : List (String × TensorProto))
      (extr : List String) (res : Graph × List (String × TensorProto) × List String),
      g.getInitializedTensor name = some t0 →
      inputs.count name = 1 →
      populateTransferredMap req m inputs g tm extr = (res, none) →
      res.1.getInitializedTensor name = none ∧ assocLookup res.2.1 name = some t0 := by
  intro inputs
  induction inputs with
  | nil =>
    intro g tm extr res _ hcount _
    simp at hcount
  | cons s rest ih =>
    intro g tm extr res hgname hcount hrun
    by_cases hs : s = name
    · subst hs
      have htn : t0.name = s := getInit_name hgname
      rw [populateTransferredMap] at hrun
      simp only [hgname, htn, hmap] at hrun
      rw [if_neg hL] at hrun
      simp only [extract_eq hgname] at hrun
      have habs := pop_absent req m rest (g.removeInitializer s) (assocSet tm s t0)
        (extr ++ [s]) s (removeInitializer_get_self g s)
      rw [assocLookup_set_self] at habs
      have hres : (populateTransferredMap req m rest (g.removeInitializer s)
          (assocSet tm s t0) (extr ++ [s])).1 = res := congrArg Prod.fst hrun
      rw [hres] at habs
      exact habs
    · have hcount' : rest.count name = 1 := by
        rw [List.count_cons] at hcount
        simpa [show (s == name) = false by simp [hs]] using hcount
      rw [populateTransferredMap] at hrun
      cases hg : g.getInitializedTensor s with
      | none =>
          simp only [hg] at hrun
          exact ih g tm extr res hgname hcount' hrun
      | some tensor =>
          have htn : tensor.name = s := getInit_name hg
          simp only [hg] at hrun
          cases hm2 : multiLookup m tensor.name with
          | none =>
              simp only [hm2] at hrun
              exact absurd (congrArg Prod.snd hrun) (by simp)
          | some refs =>
              simp only [hm2] at hrun
              by_cases hlen2 : 1 < refs.length
              · rw [if_pos hlen2] at hrun
                by_cases hreq : req.contains s = true
                · rw [if_pos hreq] at hrun
                  exact ih g (assocSet tm s tensor) extr res hgname hcount' hrun
                · rw [if_neg hreq] at hrun
                  exact ih g tm extr res hgname hcount' hrun
              · rw [if_neg hlen2, htn] at hrun
                simp only [extract_eq hg] at hrun
                have hgname' : (g.removeInitializer s).getInitializedTensor name = some t0 := by
                  rw [removeInitializer_get_other g s name (fun he => hs he.symm)]
                  exact hgname
                exact ih (g.removeInitializer s) (assocSet tm s tensor) (extr ++ [s]) res
                  hgname' hcount' hrun

theorem pop_mult (req : List String) (m : List (String × List Nat)) (name : String)
    (t0 : TensorProto) (L : List Nat) (hmap : multiLookup m name = some L)
    (hL : 1 < L.length) :
    ∀ (inputs : List String) (g : Graph) (tm : List (String × TensorProto))
      (extr : List String),
      g.getInitializedTensor name = some t0 →
      (populateTransferredMap req m inputs g tm extr).1.1.getInitializedTensor name =
        some t0 ∧
      (name ∉ req →
        assocLookup (populateTransferredMap req m inputs g tm extr).1.2.1 name =
          assocLookup tm name) ∧
      (name ∈ req → name ∉ inputs →
        assocLookup (populateTransferredMap req m inputs g tm extr).1.2.1 name =
          assocLookup tm name) ∧
      (name ∈ req → name ∈ inputs →
        (populateTransferredMap req m inputs g tm extr).2 = none →
        assocLookup (populateTransferredMap req m inputs g tm extr).1.2.1 name =
          some t0) := by
  intro inputs
  induction inputs with
  | nil =>
    intro g tm extr hg
    exact ⟨hg, fun _ => rfl, fun _ _ => rfl, fun _ hmem _ => absurd hmem (by simp)⟩
  | cons s rest ih =>
    intro g tm extr hg
    by_cases hs : s = name
    · subst hs
      have htn : t0.name = s := getInit_name hg
      by_cases hreq : req.contains s = true
      · have hstep : populateTransferredMap req m (s :: rest) g tm extr =
            populateTransferredMap req m rest g (assocSet tm s t0) extr := by
          rw [populateTransferredMap]
          simp only [hg, htn, hmap]
          rw [if_pos hL, if_pos hreq]
        rw [hstep]
        have hmemreq : s ∈ req := by simpa using hreq
        obtain ⟨ih1, ih2, ih3, ih4⟩ := ih g (assocSet tm s t0) extr hg
        refine ⟨ih1, ?_, ?_, ?_⟩
        · intro hnot
          exact absurd hmemreq hnot
        · intro _ hnotmem
          exact absurd (List.mem_cons_self s rest) hnotmem
        · intro _ _ herr
          by_cases hmem : s ∈ rest
          · exact ih4 hmemreq hmem herr
          · rw [ih3 hmemreq hmem, assocLookup_set_self]
      · have hstep : populateTransferredMap req m (s :: rest) g tm extr =
            populateTransferredMap req m rest g tm extr := by
          rw [populateTransferredMap]
          simp only [hg, htn, hmap]
          rw [if_pos hL, if_neg hreq]
        rw [hstep]
        have hnotreq : s ∉ req := by simpa using hreq
        obtain ⟨ih1, ih2, ih3, ih4⟩ := ih g tm extr hg
        refine ⟨ih1, fun _ => ih2 hnotreq, ?_, ?_⟩
        · intro hmemreq _
          exact absurd hmemreq hnotreq
        · intro hmemreq _ _
          exact absurd hmemreq hnotreq
    · have hns : name ≠ s := fun he => hs he.symm
      cases hg2 : g.getInitializedTensor s with
      | none =>
          have hstep : populateTransferredMap req m (s :: rest) g tm extr =
              populateTransferredMap req m rest g tm extr := by
            rw [populateTransferredMap]
            simp only [hg2]
          rw [hstep]
          obtain ⟨ih1, ih2, ih3, ih4⟩ := ih g tm extr hg
          refine ⟨ih1, ih2, ?_, ?_⟩
          · intro hmemreq hnotmem
            exact ih3 hmemreq (fun hc => hnotmem (List.mem_cons_of_mem s hc))
          · intro hmemreq hmem herr
            rcases List.mem_cons.mp hmem with he | hmemrest
            · exact absurd he.symm hs
            · exact ih4 hmemreq hmemrest herr
      | some tensor =>
          have htn : tensor.name = s := getInit_name hg2
          cases hm2 : multiLookup m tensor.name with
          | none =>
              have hstep : populateTransferredMap req m (s :: rest) g tm extr =
                  ((g, tm, extr), some PassErr.assertFailed) := by
                rw [populateTransferredMap]
                simp only [hg2, hm2]
              rw [hstep]
              refine ⟨hg, fun _ => rfl, fun _ _ => rfl, ?_⟩
              intro _ _ herr
              simp at herr
          | some refs =>
              by_cases hlen2 : 1 < refs.length
              · by_cases hreq2 : req.contains s = true
                · have hstep : populateTransferredMap req m (s :: rest) g tm extr =
                      populateTransferredMap req m rest g (assocSet tm s tensor) extr := by
                    rw [populateTransferredMap]
                    simp only [hg2, hm2]
                    rw [if_pos hlen2, if_pos hreq2]
                  rw [hstep]
                  obtain ⟨ih1, ih2, ih3, ih4⟩ := ih g (assocSet tm s tensor) extr hg
                  rw [assocLookup_set_other tm s name tensor hns] at ih2 ih3
                  refine ⟨ih1, ih2, ?_, ?_⟩
                  · intro hmemreq hnotmem
                    exact ih3 hmemreq (fun hc => hnotmem (List.mem_cons_of_mem s hc))
                  · intro hmemreq hmem herr
                    rcases List.mem_cons.mp hmem with he | hmemrest
                    · exact absurd he.symm hs
                    · exact ih4 hmemreq hmemrest herr
                · have hstep : populateTransferredMap req m (s :: rest) g tm extr =
                      populateTransferredMap req m rest g tm extr := by
                    rw [populateTransferredMap]
                    simp only [hg2, hm2]
                    rw [if_pos hlen2, if_neg hreq2]
                  rw [hstep]
                  obtain ⟨ih1, ih2, ih3, ih4⟩ := ih g tm extr hg
                  refine ⟨ih1, ih2, ?_, ?_⟩
                  · intro hmemreq hnotmem
                    exact ih3 hmemreq (fun hc => hnotmem (List.mem_cons_of_mem s hc))
                  · intro hmemreq hmem herr
                    rcases List.mem_cons.mp hmem with he | hmemrest
                    · exact absurd he.symm hs
                    · exact ih4 hmemreq hmemrest herr
              · have hstep : populateTransferredMap req m (s :: rest) g tm extr =
                    populateTransferredMap req m rest (g.removeInitializer s)
                      (assocSet tm s tensor) (extr ++ [s]) := by
                  rw [populateTransferredMap]
                  simp only [hg2, hm2]
                  rw [if_neg hlen2, htn]
                  simp only [extract_eq hg2]
                rw [hstep]
                have hg' : (g.removeInitializer s).getInitializedTensor name = some t0 := by
                  rw [removeInitializer_get_other g s name hns]
                  exact hg
                obtain ⟨ih1, ih2, ih3, ih4⟩ :=
                  ih (g.removeInitializer s) (assocSet tm s tensor) (extr ++ [s]) hg'
                rw [assocLookup_set_other tm s name tensor hns] at ih2 ih3
                refine ⟨ih1, ih2, ?_, ?_⟩
                · intro hmemreq hnotmem
                  exact ih3 hmemreq (fun hc => hnotmem (List.mem_cons_of_mem s hc))
                · intro hmemreq hmem herr
                  rcases List.mem_cons.mp hmem with he | hmemrest
                  · exact absurd he.symm hs
                  · exact ih4 hmemreq hmemrest herr


theorem fuse_err_none (co : IndexedSubGraph → Bool) (ro : KernelDef → Bool)
    (p : GraphPartition) (i : Nat) (g : Graph) (reg : List KernelEntry)
    (pfx : String) (tm : List (String × TensorProto))
    (h : (fusePartitionAndRegisterKernel co ro p i g reg pfx tm).err = none) :
    fusePartitionAndRegisterKernel co ro p i g reg pfx tm =
      { graph := (g.beginFuseSubGraph (mkFusedSubGraph pfx i p)).finalizeFuseSubGraph
          (mkFusedSubGraph pfx i p)
        registry := reg ++ [entryOf (mkFusedSubGraph pfx i p) tm]
        trace := [mkFusedSubGraph pfx i p]
        err := none
        fusedMeta := some (mkFusedSubGraph pfx i p).metaDef } ∧
    co (mkFusedSubGraph pfx i p) = true := by
  rw [fusePartitionAndRegisterKernel, createCompiledOperatorAndRegisterKernel] at h ⊢
  by_cases h1 : co (mkFusedSubGraph pfx i p) = true
  · rw [if_pos h1] at h ⊢
    by_cases h2 : ro (kdefOf (mkFusedSubGraph pfx i p)) = true
    · rw [if_pos h2] at h ⊢
      exact ⟨rfl, h1⟩
    · rw [if_neg h2] at h
      simp at h
  · rw [if_neg h1] at h
    simp at h

theorem fuse_err_some (co : IndexedSubGraph → Bool) (ro : KernelDef → Bool)
    (p : GraphPartition) (i : Nat) (g : Graph) (reg : List KernelEntry)
    (pfx : String) (tm : List (String × TensorProto)) (e : PassErr)
    (h : (fusePartitionAndRegisterKernel co ro p i g reg pfx tm).err = some e) :
    (e = PassErr.compileFailed ∨ e = PassErr.registerFailed) ∧
    fusePartitionAndRegisterKernel co ro p i g reg pfx tm =
      { graph := g.beginFuseSubGraph (mkFusedSubGraph pfx i p)
        registry := reg
        trace := [mkFusedSubGraph pfx i p]
        err := some e
        fusedMeta := none } ∧
    (e = PassErr.compileFailed → co (mkFusedSubGraph pfx i p) = false) := by
  rw [fusePartitionAndRegisterKernel, createCompiledOperatorAndRegisterKernel] at h ⊢
  by_cases h1 : co (mkFusedSubGraph pfx i p) = true
  · rw [if_pos h1] at h ⊢
    by_cases h2 : ro (kdefOf (mkFusedSubGraph pfx i p)) = true
    · rw [if_pos h2] at h
      simp at h
    · rw [if_neg h2] at h ⊢
      have he : e = PassErr.registerFailed := by
        simpa using h.symm
      subst he
      exact ⟨Or.inr rfl, rfl, fun hc => by simp at hc⟩
  · rw [if_neg h1] at h ⊢
    have he : e = PassErr.compileFailed := by
      simpa using h.symm
    subst he
    exact ⟨Or.inl rfl, rfl, fun _ => by simpa using h1⟩

theorem loop_modified (co : IndexedSubGraph → Bool) (ro : KernelDef → Bool)
    (req : List String) (m : List (String × List Nat)) (ps : List GraphPartition) :
    ∀ (idxs : List Nat) (st : PassState),
      (applyLoop co ro req m ps idxs st).1.modified = st.modified := by
  intro idxs
  induction idxs with
  | nil => intro st; rfl
  | cons i rest ih =>
    intro st
    rw [applyLoop]
    cases hp : ps[i]? with
    | none => exact ih st
    | some p =>
        simp only []
        by_cases hcond : p.rootMergedIndex = i ∧ p.isDmlPartition = true
        · rw [if_pos hcond]
          by_cases hdg : p.isDmlGraphPartition = true
          · rw [if_pos hdg]
            rcases hpop : populateTransferredMap req m p.inputs st.graph [] []
              with ⟨⟨g', tm2, extr2⟩, err2⟩
            cases err2 with
            | some e =>
                simp only [hpop]
            | none =>
                simp only [hpop]
                cases hfo : (fusePartitionAndRegisterKernel co ro p i g' st.registry
                    (Nat.repr st.counter ++ "_") tm2).err with
                | some e => simp only [hfo]
                | none =>
                    simp only [hfo]
                    exact ih _
          · rw [if_neg hdg]
            exact ih st
        · rw [if_neg hcond]
          exact ih st

theorem fuse_get (co : IndexedSubGraph → Bool) (ro : KernelDef → Bool)
    (p : GraphPartition) (i : Nat) (g : Graph) (reg : List KernelEntry)
    (pfx : String) (tm : List (String × TensorProto)) (n : String) :
    (fusePartitionAndRegisterKernel co ro p i g reg pfx tm).graph.getInitializedTensor n =
      g.getInitializedTensor n := by
  cases hfo : (fusePartitionAndRegisterKernel co ro p i g reg pfx tm).err with
  | none => rw [(fuse_err_none co ro p i g reg pfx tm hfo).1]; rfl
  | some e => rw [(fuse_err_some co ro p i g reg pfx tm e hfo).2.1]; rfl

theorem pop_err (req : List String) (m : List (String × List Nat)) :
    ∀ (inputs : List String) (g : Graph) (tm : List (String × TensorProto))
      (extr : List String) (e : PassErr),
      (populateTransferredMap req m inputs g tm extr).2 = some e →
      e = PassErr.assertFailed ∨ e = PassErr.extractFailed := by
  intro inputs
  induction inputs with
  | nil => intro g tm extr e h; exact absurd h (by simp [populateTransferredMap])
  | cons s rest ih =>
    intro g tm extr e h
    rw [populateTransferredMap] at h
    cases hg : g.getInitializedTensor s with
    | none =>
        simp only [hg] at h
        exact ih g tm extr e h
    | some tensor =>
        simp only [hg] at h
        cases hm : multiLookup m tensor.name with
        | none =>
            simp only [hm] at h
            exact Or.inl (by simpa using h.symm)
        | some refs =>
            simp only [hm] at h
            by_cases hlen : 1 < refs.length
            · rw [if_pos hlen] at h
              by_cases hreq : req.contains s = true
              · rw [if_pos hreq] at h
                exact ih g _ extr e h
              · rw [if_neg hreq] at h
                exact ih g tm extr e h
            · rw [if_neg hlen] at h
              rw [getInit_name hg] at h
              simp only [extract_eq hg] at h
              exact ih _ _ _ e h

theorem pop_nodes (req : List String) (m : List (String × List Nat)) :
    ∀ (inputs : List String) (g : Graph) (tm : List (String × TensorProto))
      (extr : List String),
      (populateTransferredMap req m inputs g tm extr).1.1.nodes = g.nodes := by
  intro inputs
  induction inputs with
  | nil => intro g tm extr; rfl
  | cons s rest ih =>
    intro g tm extr
    rw [populateTransferredMap]
    cases hg : g.getInitializedTensor s with
    | none => exact ih g tm extr
    | some tensor =>
        simp only []
        cases hm : multiLookup m tensor.name with
        | none => rfl
        | some refs =>
            simp only []
            by_cases hlen : 1 < refs.length
            · rw [if_pos hlen]
              by_cases hreq : req.contains s = true
              · rw [if_pos hreq]
                exact ih g _ extr
              · rw [if_neg hreq]
                exact ih g tm extr
            · rw [if_neg hlen, getInit_name hg]
              simp only [extract_eq hg]
              exact ih _ _ _

theorem loop_absent (co : IndexedSubGraph → Bool) (ro : KernelDef → Bool)
    (req : List String) (m : List (String × List Nat)) (ps : List GraphPartition) :
    ∀ (idxs : List Nat) (st : PassState) (n : String),
      st.graph.getInitializedTensor n = none →
      (applyLoop co ro req m ps idxs st).1.graph.getInitializedTensor n = none := by
  intro idxs
  induction idxs with
  | nil => intro st n h; exact h
  | cons i rest ih =>
    intro st n h
    rw [applyLoop]
    cases hp : ps[i]? with
    | none => exact ih st n h
    | some p =>
        simp only []
        by_cases hcond : p.rootMergedIndex = i ∧ p.isDmlPartition = true
        · rw [if_pos hcond]
          by_cases hdg : p.isDmlGraphPartition = true
          · rw [if_pos hdg]
            rcases hpop : populateTransferredMap req m p.inputs st.graph [] []
              with ⟨⟨g', tm2, extr2⟩, err2⟩
            have habs := (pop_absent req m p.inputs st.graph [] [] n h).1
            rw [hpop] at habs
            cases err2 with
            | some e =>
                simp only [hpop]
                exact habs
            | none =>
                simp only [hpop]
                cases hfo : (fusePartitionAndRegisterKernel co ro p i g' st.registry
                    (Nat.repr st.counter ++ "_") tm2).err with
                | some e =>
                    simp only [hfo]
                    rw [fuse_get]
                    exact habs
                | none =>
                    simp only [hfo]
                    apply ih
                    simp only []
                    rw [fuse_get]
                    exact habs
          · rw [if_neg hdg]
            exact ih st n h
        · rw [if_neg hcond]
          exact ih st n h

/-- The fused-region records a run of the loop appends, starting from counter
value `c0`: each successive record was produced for a root-merged DML-graph
partition, with the sub-graph built by `mkFusedSubGraph` from the counter
value in force at its fusion (the counter increments by exactly one per fused
region). -/
def fusedChainFrom (ps : List GraphPartition) :
    Nat → List (Nat × IndexedSubGraph × List (String × TensorProto)) → Prop
  | _, [] => True
  | c0, x :: rest =>
      (∃ p, ps[x.1]? = some p ∧ p.rootMergedIndex = x.1 ∧ p.isDmlPartition = true ∧
        p.isDmlGraphPartition = true ∧
        x.2.1 = mkFusedSubGraph (Nat.repr c0 ++ "_") x.1 p) ∧
      fusedChainFrom ps (c0 + 1) rest

theorem pair_eq {α β : Type} {a c : α} {b d : β} (h : (a, b) = (c, d)) :
    a = c ∧ b = d :=
  ⟨congrArg Prod.fst h, congrArg Prod.snd h⟩

theorem loop_main (co : IndexedSubGraph → Bool) (ro : KernelDef → Bool)
    (req : List String) (m : List (String × List Nat)) (ps : List GraphPartition) :
    ∀ (idxs : List Nat) (st st' : PassState) (err : Option PassErr),
      applyLoop co ro req m ps idxs st = (st', err) →
      ∃ lnew tail,
        st'.fusedResults = st.fusedResults ++ lnew ∧
        fusedChainFrom ps st.counter lnew ∧
        st.counter + lnew.length ≤ st'.counter ∧
        st'.compileTrace = st.compileTrace ++ lnew.map (fun x => x.2.1) ++ tail ∧
        (err = none → tail = [] ∧ st'.counter = st.counter + lnew.length) ∧
        (∀ e, err = some e →
          ((e = PassErr.compileFailed ∨ e = PassErr.registerFailed) →
            ∃ j p, tail = [mkFusedSubGraph (Nat.repr (st.counter + lnew.length) ++ "_") j p] ∧
              (e = PassErr.compileFailed →
                co (mkFusedSubGraph (Nat.repr (st.counter + lnew.length) ++ "_") j p) =
                  false)) ∧
          ((e = PassErr.assertFailed ∨ e = PassErr.extractFailed) → tail = [])) := by
  intro idxs
  induction idxs with
  | nil =>
    intro st st' err h
    rw [applyLoop] at h
    obtain ⟨h1, h2⟩ := pair_eq h
    subst h1
    subst h2
    refine ⟨[], [], by simp, trivial, by simp, by simp, fun _ => ⟨rfl, by simp⟩, ?_⟩
    intro e he
    exact absurd he (by simp)
  | cons i rest ih =>
    intro st st' err h
    rw [applyLoop] at h
    cases hp : ps[i]? with
    | none =>
        simp only [hp] at h
        exact ih st st' err h
    | some p =>
        simp only [hp] at h
        by_cases hcond : p.rootMergedIndex = i ∧ p.isDmlPartition = true
        · rw [if_pos hcond] at h
          by_cases hdg : p.isDmlGraphPartition = true
          · rw [if_pos hdg] at h
            rcases hpop : populateTransferredMap req m p.inputs st.graph [] []
              with ⟨⟨g', tm2, extr2⟩, err2⟩
            simp only [hpop] at h
            cases err2 with
            | some e =>
                obtain ⟨h1, h2⟩ := pair_eq h
                subst h1
                subst h2
                have hpe : e = PassErr.assertFailed ∨ e = PassErr.extractFailed := by
                  apply pop_err req m p.inputs st.graph [] [] e
                  rw [hpop]
                refine ⟨[], [], by simp, trivial, by simp, by simp, ?_, ?_⟩
                · intro hc
                  exact absurd hc (by simp)
                · intro e' he'
                  have hee : e = e' := Option.some.inj he'
                  subst hee
                  constructor
                  · intro hcr
                    exfalso
                    rcases hpe with h3 | h3 <;> rcases hcr with h4 | h4 <;>
                      rw [h3] at h4 <;> exact PassErr.noConfusion h4
                  · intro _
                    rfl
            | none =>
                cases hfo : (fusePartitionAndRegisterKernel co ro p i g' st.registry
                    (Nat.repr st.counter ++ "_") tm2).err with
                | some e =>
                    simp only [hfo] at h
                    obtain ⟨hee, hfoeq, hcof⟩ := fuse_err_some co ro p i g' st.registry
                      (Nat.repr st.counter ++ "_") tm2 e hfo
                    rw [hfoeq] at h
                    obtain ⟨h1, h2⟩ := pair_eq h
                    subst h1
                    subst h2
                    refine ⟨[], [mkFusedSubGraph (Nat.repr st.counter ++ "_") i p],
                      by simp, trivial, by simp, by simp, ?_, ?_⟩
                    · intro hc
                      exact absurd hc (by simp)
                    · intro e' he'
                      have heq : e = e' := Option.some.inj he'
                      subst heq
                      constructor
                      · intro _
                        refine ⟨i, p, ?_, ?_⟩
                        · simp
                        · intro hec
                          have := hcof hec
                          simpa using this
                      · intro hae
                        exfalso
                        rcases hee with h3 | h3 <;> rcases hae with h4 | h4 <;>
                          rw [h3] at h4 <;> exact PassErr.noConfusion h4
                | none =>
                    simp only [hfo] at h
                    obtain ⟨hfoeq, hco⟩ := fuse_err_none co ro p i g' st.registry
                      (Nat.repr st.counter ++ "_") tm2 hfo
                    rw [hfoeq] at h
                    obtain ⟨l2, tail2, hfused2, hchain2, hcnt2, htrace2, hnone2, hsome2⟩ :=
                      ih _ st' err h
                    refine ⟨(i, mkFusedSubGraph (Nat.repr st.counter ++ "_") i p, tm2) :: l2,
                      tail2, ?_, ?_, ?_, ?_, ?_, ?_⟩
                    · rw [hfused2]
                      simp
                    · exact ⟨⟨p, hp, hcond.1, hcond.2, hdg, rfl⟩, hchain2⟩
                    · have : st.counter + 1 + l2.length ≤ st'.counter := hcnt2
                      simp only [List.length_cons]
                      omega
                    · rw [htrace2]
                      simp
                    · intro he
                      obtain ⟨ht2, hc2⟩ := hnone2 he
                      refine ⟨ht2, ?_⟩
                      have : st'.counter = st.counter + 1 + l2.length := hc2
                      simp only [List.length_cons]
                      omega
                    · intro e he
                      obtain ⟨hs1, hs2⟩ := hsome2 e he
                      refine ⟨?_, hs2⟩
                      intro hcr
                      obtain ⟨j, q, hts, hcs⟩ := hs1 hcr
                      have hceq : st.counter + 1 + l2.length =
                          st.counter + ((i, mkFusedSubGraph (Nat.repr st.counter ++ "_") i p,
                            tm2) :: l2).length := by
                        simp only [List.length_cons]
                        omega
                      rw [hceq] at hts hcs
                      exact ⟨j, q, hts, hcs⟩
          · rw [if_neg hdg] at h
            exact ih st st' err h
        · rw [if_neg hcond] at h
          exact ih st st' err h

theorem loop_allfused (co : IndexedSubGraph → Bool) (ro : KernelDef → Bool)
    (req : List String) (m : List (String × List Nat)) (ps : List GraphPartition) :
    ∀ (idxs : List Nat) (st st' : PassState),
      applyLoop co ro req m ps idxs st = (st', none) →
      ∀ i ∈ idxs, ∀ p, ps[i]? = some p → p.rootMergedIndex = i →
        p.isDmlPartition = true → p.isDmlGraphPartition = true →
        ∃ x ∈ st'.fusedResults, x.1 = i := by
  intro idxs
  induction idxs with
  | nil => intro st st' _ i hi; simp at hi
  | cons j rest ih =>
    intro st st' h i hi p hpi hroot hdml hdgi
    rw [applyLoop] at h
    cases hp : ps[j]? with
    | none =>
        simp only [hp] at h
        rcases List.mem_cons.mp hi with rfl | hmem
        · rw [hpi] at hp
          exact absurd hp (by simp)
        · exact ih st st' h i hmem p hpi hroot hdml hdgi
    | some q =>
        simp only [hp] at h
        by_cases hcond : q.rootMergedIndex = j ∧ q.isDmlPartition = true
        · rw [if_pos hcond] at h
          by_cases hdg : q.isDmlGraphPartition = true
          · rw [if_pos hdg] at h
            rcases hpop : populateTransferredMap req m q.inputs st.graph [] []
              with ⟨⟨g', tm2, extr2⟩, err2⟩
            simp only [hpop] at h
            cases err2 with
            | some e =>
                obtain ⟨_, h2⟩ := pair_eq h
                exact absurd h2 (by simp)
            | none =>
                cases hfo : (fusePartitionAndRegisterKernel co ro q j g' st.registry
                    (Nat.repr st.counter ++ "_") tm2).err with
                | some e =>
                    simp only [hfo] at h
                    obtain ⟨_, h2⟩ := pair_eq h
                    exact absurd h2 (by simp)
                | none =>
                    simp only [hfo] at h
                    obtain ⟨hfoeq, _⟩ := fuse_err_none co ro q j g' st.registry
                      (Nat.repr st.counter ++ "_") tm2 hfo
                    rw [hfoeq] at h
                    rcases List.mem_cons.mp hi with rfl | hmem
                    · obtain ⟨lnew, _, hfused, _⟩ := loop_main co ro req m ps rest _ st' none h
                      refine ⟨(i, mkFusedSubGraph (Nat.repr st.counter ++ "_") i q, tm2),
                        ?_, rfl⟩
                      rw [hfused]
                      apply List.mem_append_left
                      simp
                    · exact ih _ st' h i hmem p hpi hroot hdml hdgi
          · rw [if_neg hdg] at h
            rcases List.mem_cons.mp hi with rfl | hmem
            · rw [hpi] at hp
              have hqp : q = p := by
                injection hp with hpq
                exact hpq.symm
              rw [hqp] at hdg
              exact absurd hdgi hdg
            · exact ih st st' h i hmem p hpi hroot hdml hdgi
        · rw [if_neg hcond] at h
          rcases List.mem_cons.mp hi with rfl | hmem
          · rw [hpi] at hp
            have hqp : q = p := by
              injection hp with hpq
              exact hpq.symm
            rw [hqp] at hcond
            exact absurd ⟨hroot, hdml⟩ hcond
          · exact ih st st' h i hmem p hpi hroot hdml hdgi

theorem loop_noop (co : IndexedSubGraph → Bool) (ro : KernelDef → Bool)
    (req : List String) (m : List (String × List Nat)) (ps : List GraphPartition) :
    ∀ (idxs : List Nat) (st : PassState),
      (∀ i ∈ idxs, ∀ p, ps[i]? = some p → p.rootMergedIndex = i →
        p.isDmlPartition = true → p.isDmlGraphPartition = false) →
      applyLoop co ro req m ps idxs st = (st, none) := by
  intro idxs
  induction idxs with
  | nil => intro st _; rfl
  | cons j rest ih =>
    intro st hskip
    rw [applyLoop]
    cases hp : ps[j]? with
    | none =>
        exact ih st (fun i hi => hskip i (List.mem_cons_of_mem j hi))
    | some q =>
        simp only []
        by_cases hcond : q.rootMergedIndex = j ∧ q.isDmlPartition = true
        · rw [if_pos hcond]
          have hdg := hskip j (List.mem_cons_self j rest) q hp hcond.1 hcond.2
          rw [if_neg (by simp [hdg])]
          exact ih st (fun i hi => hskip i (List.mem_cons_of_mem j hi))
        · rw [if_neg hcond]
          exact ih st (fun i hi => hskip i (List.mem_cons_of_mem j hi))

theorem loop_nodes (co : IndexedSubGraph → Bool) (ro : KernelDef → Bool)
    (req : List String) (m : List (String × List Nat)) (ps : List GraphPartition) :
    ∀ (idxs : List Nat) (st st' : PassState) (err : Option PassErr),
      applyLoop co ro req m ps idxs st = (st', err) →
      ∃ lnew,
        st'.fusedResults = st.fusedResults ++ lnew ∧
        ∀ (idx : Nat) (nd : Node), (idx, nd) ∈ st'.graph.nodes →
          nd.domain = fusionNodeDomain ∨
          ((idx, nd) ∈ st.graph.nodes ∧ ∀ x ∈ lnew, idx ∉ x.2.1.nodes) := by
  intro idxs
  induction idxs with
  | nil =>
    intro st st' err h
    rw [applyLoop] at h
    obtain ⟨h1, h2⟩ := pair_eq h
    subst h1
    exact ⟨[], by simp, fun idx nd hmem => Or.inr ⟨hmem, by simp⟩⟩
  | cons j rest ih =>
    intro st st' err h
    rw [applyLoop] at h
    cases hp : ps[j]? with
    | none =>
        simp only [hp] at h
        exact ih st st' err h
    | some q =>
        simp only [hp] at h
        by_cases hcond : q.rootMergedIndex = j ∧ q.isDmlPartition = true
        · rw [if_pos hcond] at h
          by_cases hdg : q.isDmlGraphPartition = true
          · rw [if_pos hdg] at h
            rcases hpop : populateTransferredMap req m q.inputs st.graph [] []
              with ⟨⟨g', tm2, extr2⟩, err2⟩
            simp only [hpop] at h
            have hgn : g'.nodes = st.graph.nodes := by
              have := pop_nodes req m q.inputs st.graph [] []
              rw [hpop] at this
              exact this
            cases err2 with
            | some e =>
                obtain ⟨h1, _⟩ := pair_eq h
                subst h1
                refine ⟨[], by simp, fun idx nd hmem => ?_⟩
                have hmem' : (idx, nd) ∈ g'.nodes := hmem
                rw [hgn] at hmem'
                exact Or.inr ⟨hmem', by simp⟩
            | none =>
                cases hfo : (fusePartitionAndRegisterKernel co ro q j g' st.registry
                    (Nat.repr st.counter ++ "_") tm2).err with
                | some e =>
                    simp only [hfo] at h
                    obtain ⟨_, hfoeq, _⟩ := fuse_err_some co ro q j g' st.registry
                      (Nat.repr st.counter ++ "_") tm2 e hfo
                    rw [hfoeq] at h
                    obtain ⟨h1, _⟩ := pair_eq h
                    subst h1
                    refine ⟨[], by simp, fun idx nd hmem => ?_⟩
                    have hmem' : (idx, nd) ∈ g'.nodes ++
                        [(g'.nextNodeIndex,
                          (mkFusedSubGraph (Nat.repr st.counter ++ "_") j q).metaDef.toFusedNode)] :=
                      hmem
                    rcases List.mem_append.mp hmem' with hold | hnew
                    · rw [hgn] at hold
                      exact Or.inr ⟨hold, by simp⟩
                    · left
                      have : nd = (mkFusedSubGraph (Nat.repr st.counter ++ "_")
                          j q).metaDef.toFusedNode := by
                        simp at hnew
                        exact hnew.2
                      rw [this]
                      rfl
                | none =>
                    simp only [hfo] at h
                    obtain ⟨hfoeq, _⟩ := fuse_err_none co ro q j g' st.registry
                      (Nat.repr st.counter ++ "_") tm2 hfo
                    rw [hfoeq] at h
                    obtain ⟨l2, hfused2, hmem2⟩ := ih _ st' err h
                    refine ⟨(j, mkFusedSubGraph (Nat.repr st.counter ++ "_") j q, tm2) :: l2,
                      ?_, ?_⟩
                    · rw [hfused2]
                      simp
                    · intro idx nd hmem
                      rcases hmem2 idx nd hmem with hdom | ⟨hmemst2, hnotin⟩
                      · exact Or.inl hdom
                      · have hmemf : (idx, nd) ∈ ((g'.beginFuseSubGraph
                            (mkFusedSubGraph (Nat.repr st.counter ++ "_") j q)).finalizeFuseSubGraph
                            (mkFusedSubGraph (Nat.repr st.counter ++ "_") j q)).nodes := hmemst2
                        rw [Graph.finalizeFuseSubGraph] at hmemf
                        simp only [] at hmemf
                        rw [List.mem_filter] at hmemf
                        obtain ⟨hmemb, hpred⟩ := hmemf
                        have hnotin2 : idx ∉ (mkFusedSubGraph (Nat.repr st.counter ++ "_")
                            j q).nodes := by
                          intro hc
                          simp at hpred
                          exact absurd hc hpred
                        rcases List.mem_append.mp hmemb with hold | hnew
                        · rw [hgn] at hold
                          refine Or.inr ⟨hold, ?_⟩
                          intro x hx
                          rcases List.mem_cons.mp hx with rfl | hxl
                          · exact hnotin2
                          · exact hnotin x hxl
                        · left
                          have : nd = (mkFusedSubGraph (Nat.repr st.counter ++ "_")
                              j q).metaDef.toFusedNode := by
                            simp at hnew
                            exact hnew.2
                          rw [this]
                          rfl
          · rw [if_neg hdg] at h
            exact ih st st' err h
        · rw [if_neg hcond] at h
          exact ih st st' err h

theorem chain_mem (ps : List GraphPartition) :
    ∀ (l : List (Nat × IndexedSubGraph × List (String × TensorProto))) (c0 : Nat),
      fusedChainFrom ps c0 l → ∀ x ∈ l,
        ∃ c p, c0 ≤ c ∧ c < c0 + l.length ∧ ps[x.1]? = some p ∧
          p.rootMergedIndex = x.1 ∧ p.isDmlPartition = true ∧
          p.isDmlGraphPartition = true ∧
          x.2.1 = mkFusedSubGraph (Nat.repr c ++ "_") x.1 p := by
  intro l
  induction l with
  | nil => intro c0 _ x hx; simp at hx
  | cons y rest ih =>
    intro c0 hchain x hx
    obtain ⟨⟨p, hp, hroot, hdml, hdg, hsg⟩, hrest⟩ := hchain
    rcases List.mem_cons.mp hx with rfl | hmem
    · exact ⟨c0, p, Nat.le_refl c0, by simp, hp, hroot, hdml, hdg, hsg⟩
    · obtain ⟨c, q, hc1, hc2, hq⟩ := ih (c0 + 1) hrest x hmem
      exact ⟨c, q, by omega, by simp only [List.length_cons]; omega, hq⟩

theorem chain_pairwise (ps : List GraphPartition) :
    ∀ (l : List (Nat × IndexedSubGraph × List (String × TensorProto))) (c0 : Nat),
      fusedChainFrom ps c0 l →
      List.Pairwise (fun a b => a.2.1.metaDef.name ≠ b.2.1.metaDef.name) l := by
  intro l
  induction l with
  | nil => intro c0 _; exact List.Pairwise.nil
  | cons y rest ih =>
    intro c0 hchain
    obtain ⟨⟨p, hp, hroot, hdml, hdg, hsg⟩, hrest⟩ := hchain
    refine List.Pairwise.cons ?_ (ih (c0 + 1) hrest)
    intro b hb
    obtain ⟨c, q, hc1, _, _, _, _, _, hbsg⟩ := chain_mem ps rest (c0 + 1) hrest b hb
    rw [hsg, hbsg, mkFusedSubGraph, mkFusedSubGraph]
    simp only []
    rw [mkFusedMetaDef_name, mkFusedMetaDef_name]
    intro hc
    have := (mkFusedName_inj hc).1
    omega

theorem loop_fused_idx (co : IndexedSubGraph → Bool) (ro : KernelDef → Bool)
    (req : List String) (m : List (String × List Nat)) (ps : List GraphPartition) :
    ∀ (idxs : List Nat) (st st' : PassState) (err : Option PassErr),
      applyLoop co ro req m ps idxs st = (st', err) →
      ∀ x ∈ st'.fusedResults, x ∈ st.fusedResults ∨ x.1 ∈ idxs := by
  intro idxs
  induction idxs with
  | nil =>
    intro st st' err h x hx
    obtain ⟨h1, _⟩ := pair_eq h
    subst h1
    exact Or.inl hx
  | cons j rest ih =>
    intro st st' err h x hx
    rw [applyLoop] at h
    cases hp : ps[j]? with
    | none =>
        simp only [hp] at h
        rcases ih st st' err h x hx with h1 | h2
        · exact Or.inl h1
        · exact Or.inr (List.mem_cons_of_mem j h2)
    | some p =>
        simp only [hp] at h
        by_cases hcond : p.rootMergedIndex = j ∧ p.isDmlPartition = true
        · rw [if_pos hcond] at h
          by_cases hdg : p.isDmlGraphPartition = true
          · rw [if_pos hdg] at h
            rcases hpop : populateTransferredMap req m p.inputs st.graph [] []
              with ⟨⟨g', tm2, extr2⟩, err2⟩
            simp only [hpop] at h
            cases err2 with
            | some e =>
                obtain ⟨h1, _⟩ := pair_eq h
                subst h1
                exact Or.inl hx
            | none =>
                cases hfo : (fusePartitionAndRegisterKernel co ro p j g' st.registry
                    (Nat.repr st.counter ++ "_") tm2).err with
                | some e =>
                    simp only [hfo] at h
                    obtain ⟨_, hfoeq, _⟩ := fuse_err_some co ro p j g' st.registry
                      (Nat.repr st.counter ++ "_") tm2 e hfo
                    rw [hfoeq] at h
                    obtain ⟨h1, _⟩ := pair_eq h
                    subst h1
                    exact Or.inl hx
                | none =>
                    simp only [hfo] at h
                    obtain ⟨hfoeq, _⟩ := fuse_err_none co ro p j g' st.registry
                      (Nat.repr st.counter ++ "_") tm2 hfo
                    rw [hfoeq] at h
                    rcases ih _ st' err h x hx with h1 | h2
                    · have h1' : x ∈ st.fusedResults ++
                          [(j, mkFusedSubGraph (Nat.repr st.counter ++ "_") j p, tm2)] := h1
                      rcases List.mem_append.mp h1' with hold | hnew
                      · exact Or.inl hold
                      · simp at hnew
                        rw [hnew]
                        exact Or.inr (List.mem_cons_self j rest)
                    · exact Or.inr (List.mem_cons_of_mem j h2)
          · rw [if_neg hdg] at h
            rcases ih st st' err h x hx with h1 | h2
            · exact Or.inl h1
            · exact Or.inr (List.mem_cons_of_mem j h2)
        · rw [if_neg hcond] at h
          rcases ih st st' err h x hx with h1 | h2
          · exact Or.inl h1
          · exact Or.inr (List.mem_cons_of_mem j h2)

theorem countRefs_pos {g0 : Graph} {s : String} {t : TensorProto}
    (hg0 : g0.getInitializedTensor s = some t) :
    ∀ (inputs : List String), s ∈ inputs → 0 < countRefs g0 inputs s := by
  intro inputs hmem
  rw [countRefs]
  have hpred : (fun s' =>
      match g0.getInitializedTensor s' with
      | some t' => t'.name == s
      | none => false) s = true := by
    simp only [hg0]
    simp [getInit_name hg0]
  have : s ∈ inputs.filter (fun s' =>
      match g0.getInitializedTensor s' with
      | some t' => t'.name == s
      | none => false) := List.mem_filter.mpr ⟨hmem, hpred⟩
  exact List.length_pos.mpr (List.ne_nil_of_mem this)

theorem getElem_lt_of_some {ps : List GraphPartition} {j : Nat} {p : GraphPartition}
    (hp : ps[j]? = some p) : j < ps.length := by
  by_contra hc
  rw [List.getElem?_eq_none (by omega)] at hp
  exact Option.noConfusion hp

theorem pop_noassert (req : List String) (g0 : Graph) (ps : List GraphPartition)
    (j : Nat) (p : GraphPartition) (hp : ps[j]? = some p)
    (hroot : p.rootMergedIndex = j) :
    ∀ (inputs : List String), (∀ s ∈ inputs, s ∈ p.inputs) →
      ∀ (g : Graph) (tm : List (String × TensorProto)) (extr : List String),
        StoreLe g g0 →
        (populateTransferredMap req (getInitializerToPartitionMap g0 ps) inputs g tm
          extr).2 ≠ some PassErr.assertFailed := by
  intro inputs
  induction inputs with
  | nil => intro _ g tm extr _; simp [populateTransferredMap]
  | cons s rest ih =>
    intro hsub g tm extr hle
    have hsmem : s ∈ p.inputs := hsub s (List.mem_cons_self s rest)
    have hsubr : ∀ s' ∈ rest, s' ∈ p.inputs := fun s' hs' =>
      hsub s' (List.mem_cons_of_mem s hs')
    rw [populateTransferredMap]
    cases hg : g.getInitializedTensor s with
    | none => exact ih hsubr g tm extr hle
    | some tensor =>
        have htn : tensor.name = s := getInit_name hg
        have hg0 : g0.getInitializedTensor s = some tensor := hle s tensor hg
        have hcnt : 0 < countRefs g0 p.inputs s := countRefs_pos hg0 p.inputs hsmem
        have hjmem : j ∈ List.range ps.length :=
          List.mem_range.mpr (getElem_lt_of_some hp)
        have href : j ∈ refsOf g0 ps s (List.range ps.length) :=
          refsOf_mem_of g0 ps s hp hroot hcnt (List.range ps.length) hjmem
        have hne : refsOf g0 ps s (List.range ps.length) ≠ [] :=
          List.ne_nil_of_mem href
        have hlook : multiLookup (getInitializerToPartitionMap g0 ps) s =
            some (refsOf g0 ps s (List.range ps.length)) := by
          rw [initPartMap_lookup, if_neg hne]
        simp only [htn, hlook]
        by_cases hlen : 1 < (refsOf g0 ps s (List.range ps.length)).length
        · rw [if_pos hlen]
          by_cases hreq : req.contains s = true
          · rw [if_pos hreq]
            exact ih hsubr g _ extr hle
          · rw [if_neg hreq]
            exact ih hsubr g tm extr hle
        · rw [if_neg hlen]
          simp only [extract_eq hg]
          exact ih hsubr (g.removeInitializer s) _ _
            (fun n t h' => hle n t (removeInitializer_le g s n t h'))

theorem c10_loop (co : IndexedSubGraph → Bool) (ro : KernelDef → Bool)
    (req : List String) (g0 : Graph) (ps : List GraphPartition) :
    ∀ (idxs : List Nat) (st : PassState), StoreLe st.graph g0 →
      (applyLoop co ro req (getInitializerToPartitionMap g0 ps) ps idxs st).2 ≠
        some PassErr.assertFailed := by
  intro idxs
  induction idxs with
  | nil => intro st _; simp [applyLoop]
  | cons j rest ih =>
    intro st hle
    rw [applyLoop]
    cases hp : ps[j]? with
    | none => exact ih st hle
    | some p =>
        simp only []
        by_cases hcond : p.rootMergedIndex = j ∧ p.isDmlPartition = true
        · rw [if_pos hcond]
          by_cases hdg : p.isDmlGraphPartition = true
          · rw [if_pos hdg]
            rcases hpop : populateTransferredMap req
                (getInitializerToPartitionMap g0 ps) p.inputs st.graph [] []
              with ⟨⟨g', tm2, extr2⟩, err2⟩
            have hstep : StoreLe g' st.graph := by
              intro n t h'
              apply pop_storele req (getInitializerToPartitionMap g0 ps) p.inputs
                st.graph [] [] n t
              rw [hpop]
              exact h'
            cases err2 with
            | some e =>
                simp only [hpop]
                intro hc
                have he : e = PassErr.assertFailed := by
                  simpa using hc
                subst he
                have := pop_noassert req g0 ps j p hp hcond.1 p.inputs
                  (fun s hs => hs) st.graph [] [] hle
                rw [hpop] at this
                exact this rfl
            | none =>
                simp only [hpop]
                cases hfo : (fusePartitionAndRegisterKernel co ro p j g' st.registry
                    (Nat.repr st.counter ++ "_") tm2).err with
                | some e =>
                    simp only [hfo]
                    obtain ⟨hee, _, _⟩ := fuse_err_some co ro p j g' st.registry
                      (Nat.repr st.counter ++ "_") tm2 e hfo
                    intro hc
                    have he : e = PassErr.assertFailed := by
                      simpa using hc
                    subst he
                    rcases hee with h3 | h3 <;> exact PassErr.noConfusion h3
                | none =>
                    simp only [hfo]
                    apply ih
                    intro n t h'
                    apply hle n t
                    apply hstep n t
                    have hfg := fuse_get co ro p j g' st.registry
                      (Nat.repr st.counter ++ "_") tm2 n
                    rw [← hfg]
                    exact h'
          · rw [if_neg hdg]
            exact ih st hle
        · rw [if_neg hcond]
          exact ih st hle

theorem c2_loop (co : IndexedSubGraph → Bool) (ro : KernelDef → Bool)
    (req : List String) (m : List (String × List Nat)) (ps : List GraphPartition)
    (name : String) (t0 : TensorProto) (L : List Nat)
    (hmap : multiLookup m name = some L) (hL : 1 < L.length) :
    ∀ (idxs : List Nat) (st : PassState),
      st.graph.getInitializedTensor name = some t0 →
      (applyLoop co ro req m ps idxs st).1.graph.getInitializedTensor name = some t0 := by
  intro idxs
  induction idxs with
  | nil => intro st h; exact h
  | cons j rest ih =>
    intro st h
    rw [applyLoop]
    cases hp : ps[j]? with
    | none => exact ih st h
    | some p =>
        simp only []
        by_cases hcond : p.rootMergedIndex = j ∧ p.isDmlPartition = true
        · rw [if_pos hcond]
          by_cases hdg : p.isDmlGraphPartition = true
          · rw [if_pos hdg]
            rcases hpop : populateTransferredMap req m p.inputs st.graph [] []
              with ⟨⟨g', tm2, extr2⟩, err2⟩
            have hkeep : g'.getInitializedTensor name = some t0 := by
              have := (pop_mult req m name t0 L hmap hL p.inputs st.graph [] [] h).1
              rw [hpop] at this
              exact this
            cases err2 with
            | some e =>
                simp only [hpop]
                exact hkeep
            | none =>
                simp only [hpop]
                cases hfo : (fusePartitionAndRegisterKernel co ro p j g' st.registry
                    (Nat.repr st.counter ++ "_") tm2).err with
                | some e =>
                    simp only [hfo]
                    rw [fuse_get]
                    exact hkeep
                | none =>
                    simp only [hfo]
                    apply ih
                    simp only []
                    rw [fuse_get]
                    exact hkeep
          · rw [if_neg hdg]
            exact ih st h
        · rw [if_neg hcond]
          exact ih st h

theorem c7_loop (co : IndexedSubGraph → Bool) (ro : KernelDef → Bool)
    (req : List String) (m : List (String × List Nat)) (ps : List GraphPartition)
    (name : String) (t0 : TensorProto) (L : List Nat)
    (hmap : multiLookup m name = some L) (hL : 1 < L.length)
    (i : Nat) (pi : GraphPartition) (hpi : ps[i]? = some pi)
    (hin : name ∈ pi.inputs) :
    ∀ (idxs : List Nat) (st : PassState),
      st.graph.getInitializedTensor name = some t0 →
      (∀ x ∈ st.fusedResults, x.1 = i →
        (name ∈ req → assocLookup x.2.2 name = some t0) ∧
        (name ∉ req → assocLookup x.2.2 name = none)) →
      ∀ x ∈ (applyLoop co ro req m ps idxs st).1.fusedResults, x.1 = i →
        (name ∈ req → assocLookup x.2.2 name = some t0) ∧
        (name ∉ req → assocLookup x.2.2 name = none) := by
  intro idxs
  induction idxs with
  | nil => intro st _ hinv x hx; exact hinv x hx
  | cons j rest ih =>
    intro st h hinv
    rw [applyLoop]
    cases hp : ps[j]? with
    | none => exact ih st h hinv
    | some p =>
        simp only []
        by_cases hcond : p.rootMergedIndex = j ∧ p.isDmlPartition = true
        · rw [if_pos hcond]
          by_cases hdg : p.isDmlGraphPartition = true
          · rw [if_pos hdg]
            rcases hpop : populateTransferredMap req m p.inputs st.graph [] []
              with ⟨⟨g', tm2, extr2⟩, err2⟩
            have hkeep : g'.getInitializedTensor name = some t0 := by
              have := (pop_mult req m name t0 L hmap hL p.inputs st.graph [] [] h).1
              rw [hpop] at this
              exact this
            cases err2 with
            | some e =>
                simp only [hpop]
                intro x hx
                exact hinv x hx
            | none =>
                simp only [hpop]
                cases hfo : (fusePartitionAndRegisterKernel co ro p j g' st.registry
                    (Nat.repr st.counter ++ "_") tm2).err with
                | some e =>
                    simp only [hfo]
                    intro x hx
                    exact hinv x hx
                | none =>
                    simp only [hfo]
                    obtain ⟨hfoeq, _⟩ := fuse_err_none co ro p j g' st.registry
                      (Nat.repr st.counter ++ "_") tm2 hfo
                    apply ih
                    · simp only []
                      rw [fuse_get]
                      exact hkeep
                    · intro x hx hxi
                      have hx' : x ∈ st.fusedResults ++
                          [(j, mkFusedSubGraph (Nat.repr st.counter ++ "_") j p, tm2)] := hx
                      rcases List.mem_append.mp hx' with hold | hnew
                      · exact hinv x hold hxi
                      · simp only [List.mem_singleton] at hnew
                        subst hnew
                        have hji : j = i := hxi
                        subst hji
                        have hpq : p = pi := by
                          rw [hpi] at hp
                          injection hp with hh
                          exact hh.symm
                        subst hpq
                        obtain ⟨hpm1, hpm2, hpm3, hpm4⟩ :=
                          pop_mult req m name t0 L hmap hL p.inputs st.graph [] [] h
                        constructor
                        · intro hreq
                          have := hpm4 hreq hin (by rw [hpop])
                          rw [hpop] at this
                          exact this
                        · intro hnotreq
                          have := hpm2 hnotreq
                          rw [hpop] at this
                          exact this
          · rw [if_neg hdg]
            exact ih st h hinv
        · rw [if_neg hcond]
          exact ih st h hinv

theorem c1_loop (co : IndexedSubGraph → Bool) (ro : KernelDef → Bool)
    (req : List String) (m : List (String × List Nat)) (ps : List GraphPartition)
    (name : String) (t0 : TensorProto) (r : Nat) (g0 : Graph) (L : List Nat)
    (hmap : multiLookup m name = some L) (hL : ¬ 1 < L.length)
    (hcnt0 : ∀ j p, j ≠ r → ps[j]? = some p → p.rootMergedIndex = j →
      countRefs g0 p.inputs name = 0)
    (hcnt1 : ∀ p, ps[r]? = some p → p.inputs.count name = 1) :
    ∀ (idxs : List Nat) (st : PassState), idxs.Nodup →
      StoreLe st.graph g0 →
      st.graph.getInitializedTensor name = some t0 →
      (∀ x ∈ st.fusedResults, x.1 ≠ r) →
      ∀ x ∈ (applyLoop co ro req m ps idxs st).1.fusedResults, x.1 = r →
        assocLookup x.2.2 name = some t0 ∧
        (applyLoop co ro req m ps idxs st).1.graph.getInitializedTensor name = none := by
  intro idxs
  induction idxs with
  | nil =>
    intro st _ _ _ hnor x hx hxr
    exact absurd hxr (hnor x hx)
  | cons j rest ih =>
    intro st hnd hle h hnor
    have hndr : rest.Nodup := (List.nodup_cons.mp hnd).2
    have hjr : j ∉ rest := (List.nodup_cons.mp hnd).1
    rw [applyLoop]
    cases hp : ps[j]? with
    | none => exact ih st hndr hle h hnor
    | some p =>
        simp only []
        by_cases hcond : p.rootMergedIndex = j ∧ p.isDmlPartition = true
        · rw [if_pos hcond]
          by_cases hdg : p.isDmlGraphPartition = true
          · rw [if_pos hdg]
            rcases hpop : populateTransferredMap req m p.inputs st.graph [] []
              with ⟨⟨g', tm2, extr2⟩, err2⟩
            have hg'le : StoreLe g' st.graph := by
              intro n t h'
              apply pop_storele req m p.inputs st.graph [] [] n t
              rw [hpop]
              exact h'
            by_cases hjisr : j = r
            · subst hjisr
              have hcount : p.inputs.count name = 1 := hcnt1 p hp
              cases err2 with
              | some e =>
                  simp only [hpop]
                  intro x hx hxr
                  exact absurd hxr (hnor x hx)
              | none =>
                  simp only [hpop]
                  obtain ⟨hstore0, hlook0⟩ := pop_single req m name t0 L hmap hL
                    p.inputs st.graph [] [] (g', tm2, extr2) h hcount hpop
                  cases hfo : (fusePartitionAndRegisterKernel co ro p j g' st.registry
                      (Nat.repr st.counter ++ "_") tm2).err with
                  | some e =>
                      simp only [hfo]
                      intro x hx hxr
                      exact absurd hxr (hnor x hx)
                  | none =>
                      simp only [hfo]
                      intro x hx hxr
                      have hstore2 : ((fusePartitionAndRegisterKernel co ro p j g'
                          st.registry (Nat.repr st.counter ++ "_")
                          tm2).graph).getInitializedTensor name = none := by
                        rw [fuse_get]
                        exact hstore0
                      refine ⟨?_, loop_absent co ro req m ps rest _ name hstore2⟩
                      rcases loop_fused_idx co ro req m ps rest _ _ _ rfl x hx
                        with hold | hidx
                      · have hold' : x ∈ st.fusedResults ++
                            [(j, mkFusedSubGraph (Nat.repr st.counter ++ "_") j p, tm2)] :=
                          hold
                        rcases List.mem_append.mp hold' with h1 | h2
                        · exact absurd hxr (hnor x h1)
                        · simp only [List.mem_singleton] at h2
                          subst h2
                          exact hlook0
                      · rw [hxr] at hidx
                        exact absurd hidx hjr
            · have hcnt0j : countRefs g0 p.inputs name = 0 := hcnt0 j p hjisr hp hcond.1
              have hkeep : g'.getInitializedTensor name = some t0 := by
                have := pop_cnt0 req m g0 name p.inputs st.graph [] [] hle hcnt0j
                rw [hpop] at this
                rw [this]
                exact h
              cases err2 with
              | some e =>
                  simp only [hpop]
                  intro x hx hxr
                  exact absurd hxr (hnor x hx)
              | none =>
                  simp only [hpop]
                  cases hfo : (fusePartitionAndRegisterKernel co ro p j g' st.registry
                      (Nat.repr st.counter ++ "_") tm2).err with
                  | some e =>
                      simp only [hfo]
                      intro x hx hxr
                      exact absurd hxr (hnor x hx)
                  | none =>
                      simp only [hfo]
                      apply ih _ hndr
                      · intro n t h'
                        apply hle n t
                        apply hg'le n t
                        have hfg := fuse_get co ro p j g' st.registry
                          (Nat.repr st.counter ++ "_") tm2 n
                        rw [← hfg]
                        exact h'
                      · simp only []
                        rw [fuse_get]
                        exact hkeep
                      · intro x hx
                        have hx' : x ∈ st.fusedResults ++
                            [(j, mkFusedSubGraph (Nat.repr st.counter ++ "_") j p, tm2)] :=
                          hx
                        rcases List.mem_append.mp hx' with h1 | h2
                        · exact hnor x h1
                        · simp only [List.mem_singleton] at h2
                          subst h2
                          exact hjisr
          · rw [if_neg hdg]
            exact ih st hndr hle h hnor
        · rw [if_neg hcond]
          exact ih st hndr hle h hnor

theorem two_mem_length {l : List Nat} {a b : Nat} (ha : a ∈ l) (hb : b ∈ l)
    (hne : a ≠ b) : 1 < l.length := by
  match l with
  | [] => exact absurd ha (by simp)
  | [x] =>
      rw [List.mem_singleton] at ha hb
      exact absurd (ha.trans hb.symm) hne
  | x :: y :: t => simp only [List.length_cons]; omega

/-- Claim C9: `DmlGraphFusionTransformer::ApplyImpl` never writes its
`modified` out-parameter: whatever the pass does (fusing partitions,
extracting initializers, or aborting with an error), the flag passed in by
the caller is returned with its caller-supplied value. -/
theorem claim_c9_modified_untouched (co : IndexedSubGraph → Bool)
    (ro : KernelDef → Bool) (bp : Graph → List GraphPartition × List String)
    (g : Graph) (mo : Bool) (c0 : Nat) (reg : List KernelEntry) :
    (applyImpl co ro bp g mo c0 reg).1.modified = mo :=
  loop_modified co ro (bp g).2 (getInitializerToPartitionMap g (bp g).1) (bp g).1
    (List.range (bp g).1.length)
    { graph := g, modified := mo, counter := c0, registry := reg,
      fusedResults := [], compileTrace := [], extractTrace := [] }

/-- Claim C10: for every graph and every partition list produced by
`BuildPartitions`, each partition input that resolves to an initialized
tensor during the extraction loop has an entry in the
initializer-to-partition map built beforehand from the same partitions, so
the `assert(iter != initializerPartitionMap.end())` failure branch is
unreachable: the pass never returns the assert-failure error. -/
theorem claim_c10_assert_unreachable (co : IndexedSubGraph → Bool)
    (ro : KernelDef → Bool) (bp : Graph → List GraphPartition × List String)
    (g : Graph) (mo : Bool) (c0 : Nat) (reg : List KernelEntry) :
    (applyImpl co ro bp g mo c0 reg).2 ≠ some PassErr.assertFailed :=
  c10_loop co ro (bp g).2 g (bp g).1 (List.range (bp g).1.length)
    { graph := g, modified := mo, counter := c0, registry := reg,
      fusedResults := [], compileTrace := [], extractTrace := [] }
    (fun _ _ h => h)

/-- Claim C2: a constant tensor referenced as input by two or more distinct
root-merged regions is never removed from the host graph's constant store:
after the pass (whether it completes or aborts) the tensor is still present
under its name, unchanged. -/
theorem claim_c2_shared_kept (co : IndexedSubGraph → Bool) (ro : KernelDef → Bool)
    (bp : Graph → List GraphPartition × List String) (g : Graph) (mo : Bool)
    (c0 : Nat) (reg : List KernelEntry) (name : String) (t0 : TensorProto)
    (r1 r2 : Nat) (st' : PassState) (err : Option PassErr)
    (hname : g.getInitializedTensor name = some t0)
    (hr1 : r1 ∈ refsOf g (bp g).1 name (List.range (bp g).1.length))
    (hr2 : r2 ∈ refsOf g (bp g).1 name (List.range (bp g).1.length))
    (hne : r1 ≠ r2)
    (hrun : applyImpl co ro bp g mo c0 reg = (st', err)) :
    st'.graph.getInitializedTensor name = some t0 := by
  have hrefs_ne : refsOf g (bp g).1 name (List.range (bp g).1.length) ≠ [] :=
    List.ne_nil_of_mem hr1
  have hmap : multiLookup (getInitializerToPartitionMap g (bp g).1) name =
      some (refsOf g (bp g).1 name (List.range (bp g).1.length)) := by
    rw [initPartMap_lookup, if_neg hrefs_ne]
  have hL : 1 < (refsOf g (bp g).1 name (List.range (bp g).1.length)).length :=
    two_mem_length hr1 hr2 hne
  have hloop := c2_loop co ro (bp g).2 (getInitializerToPartitionMap g (bp g).1)
    (bp g).1 name t0 _ hmap hL (List.range (bp g).1.length)
    { graph := g, modified := mo, counter := c0, registry := reg,
      fusedResults := [], compileTrace := [], extractTrace := [] } hname
  have h1 : (applyLoop co ro (bp g).2 (getInitializerToPartitionMap g (bp g).1)
      (bp g).1 (List.range (bp g).1.length)
      { graph := g, modified := mo, counter := c0, registry := reg,
        fusedResults := [], compileTrace := [], extractTrace := [] }).1 = st' :=
    congrArg Prod.fst hrun
  rw [h1] at hloop
  exact hloop

/-- Claim C7: a constant tensor referenced by two or more distinct
root-merged regions is handled per region as follows when a region
referencing it gets fused: if the tensor name is in the required-initializer
set built by `BuildPartitions`, a copy is placed into that region's private
transferred-initializer map while the original stays in the host graph; if
it is not in the required set, the region's private map holds no entry for
it. -/
theorem claim_c7_shared_copy (co : IndexedSubGraph → Bool) (ro : KernelDef → Bool)
    (bp : Graph → List GraphPartition × List String) (g : Graph) (mo : Bool)
    (c0 : Nat) (reg : List KernelEntry) (name : String) (t0 : TensorProto)
    (r1 r2 i : Nat) (pi : GraphPartition) (sg : IndexedSubGraph)
    (tm : List (String × TensorProto)) (st' : PassState) (err : Option PassErr)
    (hname : g.getInitializedTensor name = some t0)
    (hr1 : r1 ∈ refsOf g (bp g).1 name (List.range (bp g).1.length))
    (hr2 : r2 ∈ refsOf g (bp g).1 name (List.range (bp g).1.length))
    (hne : r1 ≠ r2)
    (hpi : (bp g).1[i]? = some pi)
    (hin : name ∈ pi.inputs)
    (hrun : applyImpl co ro bp g mo c0 reg = (st', err))
    (hfused : (i, sg, tm) ∈ st'.fusedResults) :
    (name ∈ (bp g).2 →
      assocLookup tm name = some t0 ∧
      st'.graph.getInitializedTensor name = some t0) ∧
    (name ∉ (bp g).2 → assocLookup tm name = none) := by
  have hrefs_ne : refsOf g (bp g).1 name (List.range (bp g).1.length) ≠ [] :=
    List.ne_nil_of_mem hr1
  have hmap : multiLookup (getInitializerToPartitionMap g (bp g).1) name =
      some (refsOf g (bp g).1 name (List.range (bp g).1.length)) := by
    rw [initPartMap_lookup, if_neg hrefs_ne]
  have hL : 1 < (refsOf g (bp g).1 name (List.range (bp g).1.length)).length :=
    two_mem_length hr1 hr2 hne
  have h1 : (applyLoop co ro (bp g).2 (getInitializerToPartitionMap g (bp g).1)
      (bp g).1 (List.range (bp g).1.length)
      { graph := g, modified := mo, counter := c0, registry := reg,
        fusedResults := [], compileTrace := [], extractTrace := [] }).1 = st' :=
    congrArg Prod.fst hrun
  have hstore := c2_loop co ro (bp g).2 (getInitializerToPartitionMap g (bp g).1)
    (bp g).1 name t0 _ hmap hL (List.range (bp g).1.length)
    { graph := g, modified := mo, counter := c0, registry := reg,
      fusedResults := [], compileTrace := [], extractTrace := [] } hname
  rw [h1] at hstore
  have htm := c7_loop co ro (bp g).2 (getInitializerToPartitionMap g (bp g).1)
    (bp g).1 name t0 _ hmap hL i pi hpi hin (List.range (bp g).1.length)
    { graph := g, modified := mo, counter := c0, registry := reg,
      fusedResults := [], compileTrace := [], extractTrace := [] } hname
    (by intro x hx; simp at hx)
  rw [h1] at htm
  obtain ⟨htm1, htm2⟩ := htm (i, sg, tm) hfused rfl
  exact ⟨fun hreq => ⟨htm1 hreq, hstore⟩, htm2⟩

/-- Claim C1: a constant tensor that resolves in the host graph and is
referenced as input exactly once across all root-merged regions - namely by
the region at partition index `r` - is, once that region gets fused, no
longer present in the host graph's constant store and is present under its
name (with its original value) in that region's private
transferred-initializer map. -/
theorem claim_c1_exclusive_transfer (co : IndexedSubGraph → Bool)
    (ro : KernelDef → Bool) (bp : Graph → List GraphPartition × List String)
    (g : Graph) (mo : Bool) (c0 : Nat) (reg : List KernelEntry) (name : String)
    (t0 : TensorProto) (r : Nat) (sg : IndexedSubGraph)
    (tm : List (String × TensorProto)) (st' : PassState) (err : Option PassErr)
    (hname : g.getInitializedTensor name = some t0)
    (hrefs : refsOf g (bp g).1 name (List.range (bp g).1.length) = [r])
    (hrun : applyImpl co ro bp g mo c0 reg = (st', err))
    (hfused : (r, sg, tm) ∈ st'.fusedResults) :
    st'.graph.getInitializedTensor name = none ∧ assocLookup tm name = some t0 := by
  have hmem_r : r ∈ refsOf g (bp g).1 name (List.range (bp g).1.length) := by
    rw [hrefs]
    exact List.mem_singleton.mpr rfl
  obtain ⟨hrng, pr, hpr, hroot, hcntpos⟩ := refsOf_mem g (bp g).1 name _ r hmem_r
  have hmap : multiLookup (getInitializerToPartitionMap g (bp g).1) name =
      some [r] := by
    rw [initPartMap_lookup, if_neg (by rw [hrefs]; simp), hrefs]
  have hL : ¬ 1 < ([r] : List Nat).length := by simp
  have hcnt1 : ∀ p, (bp g).1[r]? = some p → p.inputs.count name = 1 := by
    intro p hp
    have hpe : p = pr := by
      rw [hpr] at hp
      injection hp with hh
      exact hh.symm
    subst hpe
    have hle1 : countRefs g p.inputs name ≤ 1 := by
      have := refsOf_count_le g (bp g).1 name hpr hroot (List.range (bp g).1.length) hrng
      rw [hrefs] at this
      simpa using this
    have heq := countRefs_eq_count g name hname p.inputs
    omega
  have hcnt0 : ∀ j p, j ≠ r → (bp g).1[j]? = some p → p.rootMergedIndex = j →
      countRefs g p.inputs name = 0 := by
    intro j p hjr hpj hrootj
    by_contra hc
    have hpos : 0 < countRefs g p.inputs name := by omega
    have hjmem : j ∈ List.range (bp g).1.length :=
      List.mem_range.mpr (getElem_lt_of_some hpj)
    have : j ∈ refsOf g (bp g).1 name (List.range (bp g).1.length) :=
      refsOf_mem_of g (bp g).1 name hpj hrootj hpos (List.range (bp g).1.length) hjmem
    rw [hrefs, List.mem_singleton] at this
    exact hjr this
  have h1 : (applyLoop co ro (bp g).2 (getInitializerToPartitionMap g (bp g).1)
      (bp g).1 (List.range (bp g).1.length)
      { graph := g, modified := mo, counter := c0, registry := reg,
        fusedResults := [], compileTrace := [], extractTrace := [] }).1 = st' :=
    congrArg Prod.fst hrun
  have hloop := c1_loop co ro (bp g).2 (getInitializerToPartitionMap g (bp g).1)
    (bp g).1 name t0 r g [r] hmap hL hcnt0 hcnt1 (List.range (bp g).1.length)
    { graph := g, modified := mo, counter := c0, registry := reg,
      fusedResults := [], compileTrace := [], extractTrace := [] }
    (List.nodup_range (bp g).1.length) (fun _ _ h => h) hname
    (by intro x hx; simp at hx)
  rw [h1] at hloop
  obtain ⟨hlk, hnone⟩ := hloop (r, sg, tm) hfused rfl
  exact ⟨hnone, hlk⟩

/-- Claim C5: for every fused region, the fused node's declared input list is
the region's external input name list and its declared output list is the
region's external output name list, element for element in the same order;
and the meta definition built by `FusePartitionAndRegisterKernel` is
independent of the region's internal node-index list. -/
theorem claim_c5_io_match (co : IndexedSubGraph → Bool) (ro : KernelDef → Bool)
    (bp : Graph → List GraphPartition × List String) (g : Graph) (mo : Bool)
    (c0 : Nat) (reg : List KernelEntry) (i : Nat) (sg : IndexedSubGraph)
    (tm : List (String × TensorProto)) (st' : PassState) (err : Option PassErr)
    (hrun : applyImpl co ro bp g mo c0 reg = (st', err))
    (hfused : (i, sg, tm) ∈ st'.fusedResults) :
    (∃ p, (bp g).1[i]? = some p ∧ sg.metaDef.inputs = p.inputs ∧
      sg.metaDef.outputs = p.outputs) ∧
    (∀ (pfx : String) (j : Nat) (q : GraphPartition) (l' : List Nat),
      mkFusedMetaDef pfx j { q with nodeIndices := l' } = mkFusedMetaDef pfx j q) := by
  obtain ⟨lnew, tail, hfe, hchain, _⟩ :=
    loop_main co ro (bp g).2 (getInitializerToPartitionMap g (bp g).1) (bp g).1
      (List.range (bp g).1.length)
      { graph := g, modified := mo, counter := c0, registry := reg,
        fusedResults := [], compileTrace := [], extractTrace := [] } st' err hrun
  rw [hfe] at hfused
  simp only [List.nil_append] at hfused
  obtain ⟨c, p, _, _, hp, _, _, _, hsg⟩ :=
    chain_mem (bp g).1 lnew c0 hchain (i, sg, tm) hfused
  refine ⟨⟨p, hp, ?_, ?_⟩, fun pfx j q l' => rfl⟩
  · rw [show sg = (i, sg, tm).2.1 from rfl, hsg]
    rfl
  · rw [show sg = (i, sg, tm).2.1 from rfl, hsg]
    rfl

/-- Claim C4: every fused node created by the pass carries the fixed fusion
domain and version 1, and a name of the form
`<prefix><pass-counter>_<region-index>` built from the per-pass monotonically
increasing counter; across the lifetime of the counter - including a second
pass run on the graph produced by the first, starting from the counter value
the first run left behind - all fused-node names are pairwise distinct. -/
theorem claim_c4_unique_names (co co' : IndexedSubGraph → Bool)
    (ro ro' : KernelDef → Bool) (bp bp' : Graph → List GraphPartition × List String)
    (g : Graph) (mo mo' : Bool) (c0 : Nat) (reg reg' : List KernelEntry)
    (st1 st2 : PassState) (e1 e2 : Option PassErr)
    (h1 : applyImpl co ro bp g mo c0 reg = (st1, e1))
    (h2 : applyImpl co' ro' bp' st1.graph mo' st1.counter reg' = (st2, e2)) :
    (∀ x ∈ st1.fusedResults ++ st2.fusedResults,
      x.2.1.metaDef.domain = fusionNodeDomain ∧
      x.2.1.metaDef.sinceVersion = 1 ∧
      ∃ c, x.2.1.metaDef.name = mkFusedName c x.1) ∧
    List.Pairwise (fun a b => a.2.1.metaDef.name ≠ b.2.1.metaDef.name)
      (st1.fusedResults ++ st2.fusedResults) := by
  obtain ⟨l1, tail1, hf1, hchain1, hcnt1, _⟩ :=
    loop_main co ro (bp g).2 (getInitializerToPartitionMap g (bp g).1) (bp g).1
      (List.range (bp g).1.length)
      { graph := g, modified := mo, counter := c0, registry := reg,
        fusedResults := [], compileTrace := [], extractTrace := [] } st1 e1 h1
  obtain ⟨l2, tail2, hf2, hchain2, _⟩ :=
    loop_main co' ro' (bp' st1.graph).2
      (getInitializerToPartitionMap st1.graph (bp' st1.graph).1) (bp' st1.graph).1
      (List.range (bp' st1.graph).1.length)
      { graph := st1.graph, modified := mo', counter := st1.counter,
        registry := reg', fusedResults := [], compileTrace := [],
        extractTrace := [] } st2 e2 h2
  simp only [List.nil_append] at hf1 hf2
  have hcnt1' : c0 + l1.length ≤ st1.counter := hcnt1
  constructor
  · intro x hx
    rw [hf1, hf2] at hx
    rcases List.mem_append.mp hx with hm1 | hm2
    · obtain ⟨c, p, _, _, _, _, _, _, hsg⟩ :=
        chain_mem (bp g).1 l1 c0 hchain1 x hm1
      refine ⟨?_, ?_, c, ?_⟩
      · rw [hsg]; rfl
      · rw [hsg]; rfl
      · rw [hsg]
        exact mkFusedMetaDef_name c x.1 p
    · obtain ⟨c, p, _, _, _, _, _, _, hsg⟩ :=
        chain_mem (bp' st1.graph).1 l2 st1.counter hchain2 x hm2
      refine ⟨?_, ?_, c, ?_⟩
      · rw [hsg]; rfl
      · rw [hsg]; rfl
      · rw [hsg]
        exact mkFusedMetaDef_name c x.1 p
  · rw [hf1, hf2]
    rw [List.pairwise_append]
    refine ⟨chain_pairwise (bp g).1 l1 c0 hchain1,
      chain_pairwise (bp' st1.graph).1 l2 st1.counter hchain2, ?_⟩
    intro a ha b hb
    obtain ⟨ca, pa, _, hca2, _, _, _, _, hsga⟩ :=
      chain_mem (bp g).1 l1 c0 hchain1 a ha
    obtain ⟨cb, pb, hcb1, _, _, _, _, _, hsgb⟩ :=
      chain_mem (bp' st1.graph).1 l2 st1.counter hchain2 b hb
    rw [hsga, hsgb]
    rw [show (mkFusedSubGraph (Nat.repr ca ++ "_") a.1 pa).metaDef =
      mkFusedMetaDef (Nat.repr ca ++ "_") a.1 pa from rfl]
    rw [show (mkFusedSubGraph (Nat.repr cb ++ "_") b.1 pb).metaDef =
      mkFusedMetaDef (Nat.repr cb ++ "_") b.1 pb from rfl]
    rw [mkFusedMetaDef_name, mkFusedMetaDef_name]
    intro hc
    have := (mkFusedName_inj hc).1
    omega

/-- Claim C6: for every fused region exactly one compile call is issued to
the device compiler, all during the optimization pass (the registered kernel
entry holds the already-compiled artifact, so inference never compiles); the
compile-call trace is exactly the fused regions' descriptors in order, plus
at most one trailing descriptor whose compilation failed, in which case the
pass surfaces the compile error to the caller, does not retry (no descriptor
is ever compiled twice) and does not fall back to leaving that region
unfused. -/
theorem claim_c6_single_compile (co : IndexedSubGraph → Bool) (ro : KernelDef → Bool)
    (bp : Graph → List GraphPartition × List String) (g : Graph) (mo : Bool)
    (c0 : Nat) (reg : List KernelEntry) (st' : PassState) (err : Option PassErr)
    (hrun : applyImpl co ro bp g mo c0 reg = (st', err)) :
    ∃ tail,
      st'.compileTrace = st'.fusedResults.map (fun x => x.2.1) ++ tail ∧
      (err = none → tail = []) ∧
      (err = some PassErr.compileFailed →
        ∃ sg, tail = [sg] ∧ co sg = false ∧
          sg ∉ st'.fusedResults.map (fun x => x.2.1)) ∧
      st'.compileTrace.Nodup ∧
      (∀ x ∈ st'.fusedResults, st'.compileTrace.count x.2.1 = 1) := by
  obtain ⟨lnew, tail, hfe, hchain, _, htrace, hnone, hsome⟩ :=
    loop_main co ro (bp g).2 (getInitializerToPartitionMap g (bp g).1) (bp g).1
      (List.range (bp g).1.length)
      { graph := g, modified := mo, counter := c0, registry := reg,
        fusedResults := [], compileTrace := [], extractTrace := [] } st' err hrun
  simp only [List.nil_append] at hfe htrace
  have hcross : ∀ j p, ∀ a ∈ lnew.map (fun x => x.2.1),
      a ≠ mkFusedSubGraph (Nat.repr (c0 + lnew.length) ++ "_") j p := by
    intro j p a ha
    obtain ⟨x, hxmem, hxa⟩ := List.mem_map.mp ha
    obtain ⟨c, q, _, hclt, _, _, _, _, hsg⟩ := chain_mem (bp g).1 lnew c0 hchain x hxmem
    rw [← hxa, hsg]
    intro hc
    have hn := congrArg (fun z => z.metaDef.name) hc
    simp only [] at hn
    rw [show (mkFusedSubGraph (Nat.repr c ++ "_") x.1 q).metaDef =
      mkFusedMetaDef (Nat.repr c ++ "_") x.1 q from rfl,
      show (mkFusedSubGraph (Nat.repr (c0 + lnew.length) ++ "_") j p).metaDef =
      mkFusedMetaDef (Nat.repr (c0 + lnew.length) ++ "_") j p from rfl,
      mkFusedMetaDef_name, mkFusedMetaDef_name] at hn
    have := (mkFusedName_inj hn).1
    omega
  have htail_shape : tail = [] ∨
      ∃ j p, tail = [mkFusedSubGraph (Nat.repr (c0 + lnew.length) ++ "_") j p] := by
    cases err with
    | none => exact Or.inl (hnone rfl).1
    | some e =>
        obtain ⟨hcr, hae⟩ := hsome e rfl
        cases e with
        | assertFailed => exact Or.inl (hae (Or.inl rfl))
        | extractFailed => exact Or.inl (hae (Or.inr rfl))
        | compileFailed =>
            obtain ⟨j, p, ht, _⟩ := hcr (Or.inl rfl)
            exact Or.inr ⟨j, p, ht⟩
        | registerFailed =>
            obtain ⟨j, p, ht, _⟩ := hcr (Or.inr rfl)
            exact Or.inr ⟨j, p, ht⟩
  have hmapnd : (lnew.map (fun x => x.2.1)).Nodup := by
    have hpw := chain_pairwise (bp g).1 lnew c0 hchain
    exact List.Pairwise.map _ (fun a b hab hc => hab (by rw [hc])) hpw
  have hnodup : st'.compileTrace.Nodup := by
    rw [htrace]
    rcases htail_shape with ht | ⟨j, p, ht⟩
    · rw [ht, List.append_nil]
      exact hmapnd
    · rw [ht]
      rw [List.nodup_append]
      refine ⟨hmapnd, List.nodup_singleton _, ?_⟩
      intro a ha hb
      rw [List.mem_singleton] at hb
      exact hcross j p a ha hb
  refine ⟨tail, by rw [htrace, hfe], fun he => (hnone he).1, ?_, hnodup, ?_⟩
  · intro he
    obtain ⟨hcr, _⟩ := hsome PassErr.compileFailed he
    obtain ⟨j, p, ht, hcof⟩ := hcr (Or.inl rfl)
    refine ⟨mkFusedSubGraph (Nat.repr (c0 + lnew.length) ++ "_") j p, ht,
      hcof rfl, ?_⟩
    rw [hfe]
    intro hc
    exact hcross j p _ hc rfl
  · intro x hx
    rw [hfe] at hx
    have hmem : x.2.1 ∈ st'.compileTrace := by
      rw [htrace]
      apply List.mem_append_left
      exact List.mem_map.mpr ⟨x, hx, rfl⟩
    exact List.count_eq_one_of_mem hnodup hmem

/-- A single-node graph used to exhibit the missing rollback concretely. -/
def c3Node : Node :=
  { name := "A", opType := "Conv", domain := "", nodeInputs := ["x"],
    nodeOutputs := ["y"], execProviderType := "" }

/-- Host graph holding only `c3Node`. -/
def c3Graph : Graph := { nodes := [(0, c3Node)], initializers := [], nextNodeIndex := 1 }

/-- The root-merged DML-graph partition covering `c3Node`. -/
def c3Part : GraphPartition :=
  { rootMergedIndex := 0, isDmlPartition := true, isDmlGraphPartition := true,
    inputs := ["x"], outputs := ["y"], nodeIndices := [0] }

/-- Claim C3 counterexample: with a device compiler that rejects the
descriptor, `FusePartitionAndRegisterKernel` propagates the step-2 failure
while the graph is NOT left exactly as it was before the transaction
started - the placeholder fused node inserted by `BeginFuseSubGraph` is
still in the graph, contradicting the claimed rollback. -/
theorem claim_c3_counterexample :
    (fusePartitionAndRegisterKernel (fun _ => false) (fun _ => true) c3Part 0 c3Graph []
      "0_" []).err = some PassErr.compileFailed ∧
    (fusePartitionAndRegisterKernel (fun _ => false) (fun _ => true) c3Part 0 c3Graph []
      "0_" []).graph ≠ c3Graph := by
  constructor
  · rfl
  · decide

/-- Claim C3 (amended): if step 2 (building or registering the kernel) fails,
the failure propagates to the caller but step 1 is NOT rolled back: the graph
is left with the placeholder fused node still inserted
(`BeginFuseSubGraph` applied to the pre-transaction graph, originals intact)
and no kernel entry is registered. -/
theorem claim_c3_no_rollback (co : IndexedSubGraph → Bool) (ro : KernelDef → Bool)
    (p : GraphPartition) (i : Nat) (g : Graph) (reg : List KernelEntry)
    (pfx : String) (tm : List (String × TensorProto)) (e : PassErr)
    (herr : (fusePartitionAndRegisterKernel co ro p i g reg pfx tm).err = some e) :
    (fusePartitionAndRegisterKernel co ro p i g reg pfx tm).graph =
      g.beginFuseSubGraph (mkFusedSubGraph pfx i p) ∧
    (fusePartitionAndRegisterKernel co ro p i g reg pfx tm).registry = reg := by
  obtain ⟨_, hfoeq, _⟩ := fuse_err_some co ro p i g reg pfx tm e herr
  rw [hfoeq]
  exact ⟨rfl, rfl⟩

/-- Modelled from the spec: the contract between `BuildPartitions`
(`GraphPartitioner.cpp`, not among the extracted sources) and its capability
oracle, per spec §3/§4.1: a root-merged DML-graph partition is a nonempty set
of node indices of backend-supported nodes of the graph; every
backend-supported node belongs to some root-merged DML-graph partition
(regions partition the supported nodes); and a fused node - recognizable by
the fixed fusion domain - is never itself backend-supported. -/
def PartitionerSpec (bp : Graph → List GraphPartition × List String)
    (supported : Node → Bool) : Prop :=
  (∀ (g : Graph) (i : Nat) (p : GraphPartition), (bp g).1[i]? = some p →
    p.rootMergedIndex = i → p.isDmlPartition = true → p.isDmlGraphPartition = true →
    p.nodeIndices ≠ [] ∧
    ∀ idx ∈ p.nodeIndices, ∃ nd, (idx, nd) ∈ g.nodes ∧ supported nd = true) ∧
  (∀ (g : Graph) (idx : Nat) (nd : Node), (idx, nd) ∈ g.nodes →
    supported nd = true → ∃ (j : Nat) (p : GraphPartition), (bp g).1[j]? = some p ∧
      p.rootMergedIndex = j ∧ p.isDmlPartition = true ∧ p.isDmlGraphPartition = true ∧
      idx ∈ p.nodeIndices) ∧
  (∀ nd : Node, nd.domain = fusionNodeDomain → supported nd = false)

/-- Claim C8: running the pass a second time on the graph produced by a
successful first run is idempotent: the second run fuses nothing, extracts no
constant tensor (in particular none the first run already extracted) and
completes without error, leaving the graph unchanged. -/
theorem claim_c8_idempotent (co co' : IndexedSubGraph → Bool)
    (ro ro' : KernelDef → Bool) (bp : Graph → List GraphPartition × List String)
    (supported : Node → Bool) (g : Graph) (mo mo' : Bool) (c0 : Nat)
    (reg reg' : List KernelEntry) (st1 st2 : PassState) (e2 : Option PassErr)
    (hspec : PartitionerSpec bp supported)
    (h1 : applyImpl co ro bp g mo c0 reg = (st1, none))
    (h2 : applyImpl co' ro' bp st1.graph mo' st1.counter reg' = (st2, e2)) :
    st2.graph = st1.graph ∧ st2.fusedResults = [] ∧ st2.extractTrace = [] ∧
    e2 = none := by
  obtain ⟨hp1, hp2, hp3⟩ := hspec
  obtain ⟨lnewN, hfN, hcharN⟩ :=
    loop_nodes co ro (bp g).2 (getInitializerToPartitionMap g (bp g).1) (bp g).1
      (List.range (bp g).1.length)
      { graph := g, modified := mo, counter := c0, registry := reg,
        fusedResults := [], compileTrace := [], extractTrace := [] } st1 none h1
  obtain ⟨lnewM, tailM, hfM, hchainM, _⟩ :=
    loop_main co ro (bp g).2 (getInitializerToPartitionMap g (bp g).1) (bp g).1
      (List.range (bp g).1.length)
      { graph := g, modified := mo, counter := c0, registry := reg,
        fusedResults := [], compileTrace := [], extractTrace := [] } st1 none h1
  have hfN' : st1.fusedResults = lnewN := by simpa using hfN
  have hfM' : st1.fusedResults = lnewM := by simpa using hfM
  have hlneq : lnewN = lnewM := hfN'.symm.trans hfM'
  have hallf := loop_allfused co ro (bp g).2 (getInitializerToPartitionMap g (bp g).1)
    (bp g).1 (List.range (bp g).1.length)
    { graph := g, modified := mo, counter := c0, registry := reg,
      fusedResults := [], compileTrace := [], extractTrace := [] } st1 h1
  have hnosup : ∀ (idx : Nat) (nd : Node), (idx, nd) ∈ st1.graph.nodes →
      supported nd = false := by
    intro idx nd hmem
    cases hsupv : supported nd with
    | false => rfl
    | true =>
        exfalso
        rcases hcharN idx nd hmem with hdom | ⟨hmemg, hnotin⟩
        · rw [hp3 nd hdom] at hsupv
          exact Bool.noConfusion hsupv
        · obtain ⟨j, p, hpj, hroot, hdml, hdg, hidx⟩ := hp2 g idx nd hmemg hsupv
          have hjrng : j ∈ List.range (bp g).1.length :=
            List.mem_range.mpr (getElem_lt_of_some hpj)
          obtain ⟨x, hxmem, hxj⟩ := hallf j hjrng p hpj hroot hdml hdg
          have hxmemM : x ∈ lnewM := by
            rw [hfM'] at hxmem
            exact hxmem
          obtain ⟨c, q, _, _, hq, _, _, _, hsg⟩ :=
            chain_mem (bp g).1 lnewM c0 hchainM x hxmemM
          rw [hxj] at hq
          have hqp : q = p := by
            rw [hpj] at hq
            injection hq with hh
            exact hh.symm
          have hin : idx ∈ x.2.1.nodes := by
            rw [hsg]
            rw [show (mkFusedSubGraph (Nat.repr c ++ "_") x.1 q).nodes =
              q.nodeIndices from rfl]
            rw [hqp]
            exact hidx
          have hxmemN : x ∈ lnewN := by
            rw [hlneq]
            exact hxmemM
          exact hnotin x hxmemN hin
  have hskip : ∀ i ∈ List.range (bp st1.graph).1.length, ∀ p,
      (bp st1.graph).1[i]? = some p → p.rootMergedIndex = i →
      p.isDmlPartition = true → p.isDmlGraphPartition = false := by
    intro i _ p hpi hroot hdml
    cases hflag : p.isDmlGraphPartition with
    | false => rfl
    | true =>
        exfalso
        obtain ⟨hnn, hsupall⟩ := hp1 st1.graph i p hpi hroot hdml hflag
        obtain ⟨idx, hidxmem⟩ := List.exists_mem_of_ne_nil p.nodeIndices hnn
        obtain ⟨nd, hndmem, hndsup⟩ := hsupall idx hidxmem
        rw [hnosup idx nd hndmem] at hndsup
        exact Bool.noConfusion hndsup
  have hrun2loop := loop_noop co' ro' (bp st1.graph).2
    (getInitializerToPartitionMap st1.graph (bp st1.graph).1) (bp st1.graph).1
    (List.range (bp st1.graph).1.length)
    { graph := st1.graph, modified := mo', counter := st1.counter,
      registry := reg', fusedResults := [], compileTrace := [],
      extractTrace := [] } hskip
  have h2' : applyLoop co' ro' (bp st1.graph).2
      (getInitializerToPartitionMap st1.graph (bp st1.graph).1) (bp st1.graph).1
      (List.range (bp st1.graph).1.length)
      { graph := st1.graph, modified := mo', counter := st1.counter,
        registry := reg', fusedResults := [], compileTrace := [],
        extractTrace := [] } = (st2, e2) := h2
  obtain ⟨hst2, he2⟩ := pair_eq (hrun2loop.symm.trans h2')
  exact ⟨by rw [← hst2], by rw [← hst2], by rw [← hst2], he2.symm⟩

/-- Example constant tensor referenced by exactly one region. -/
def wTensorW : TensorProto := { name := "w", payload := [7] }

/-- Example constant tensor referenced by two regions. -/
def wTensorS : TensorProto := { name := "s", payload := [5] }

/-- Example node of region 0. -/
def wNodeA : Node :=
  { name := "A", opType := "Add", domain := "", nodeInputs := ["w", "x"],
    nodeOutputs := ["y"], execProviderType := "" }

/-- Example node of region 1. -/
def wNodeB : Node :=
  { name := "B", opType := "Add", domain := "", nodeInputs := ["s", "y"],
    nodeOutputs := ["z"], execProviderType := "" }

/-- Example node of region 2. -/
def wNodeC : Node :=
  { name := "C", opType := "Add", domain := "", nodeInputs := ["s", "z"],
    nodeOutputs := ["u"], execProviderType := "" }

/-- Example host graph with two initializers and three nodes. -/
def wG : Graph :=
  { nodes := [(0, wNodeA), (1, wNodeB), (2, wNodeC)],
    initializers := [wTensorW, wTensorS], nextNodeIndex := 3 }

/-- Example partition covering node 0, referencing `w` exclusively. -/
def wP0 : GraphPartition :=
  { rootMergedIndex := 0, isDmlPartition := true, isDmlGraphPartition := true,
    inputs := ["w", "x"], outputs := ["y"], nodeIndices := [0] }

/-- Example partition covering node 1, referencing the shared `s`. -/
def wP1 : GraphPartition :=
  { rootMergedIndex := 1, isDmlPartition := true, isDmlGraphPartition := true,
    inputs := ["s", "y"], outputs := ["z"], nodeIndices := [1] }

/-- Example partition covering node 2, also referencing the shared `s`. -/
def wP2 : GraphPartition :=
  { rootMergedIndex := 2, isDmlPartition := true, isDmlGraphPartition := true,
    inputs := ["s", "z"], outputs := ["u"], nodeIndices := [2] }

/-- Example partitioner: three root-merged DML-graph partitions; `s` is in
the required-initializer set. -/
def wBp : Graph → List GraphPartition × List String := fun _ => ([wP0, wP1, wP2], ["s"])

/-- Example device compiler that accepts everything. -/
def wCo : IndexedSubGraph → Bool := fun _ => true

/-- Example kernel registry that accepts everything. -/
def wRo : KernelDef → Bool := fun _ => true

theorem claim_c1_witness :
    wG.getInitializedTensor "w" = some wTensorW ∧
    refsOf wG (wBp wG).1 "w" (List.range (wBp wG).1.length) = [0] ∧
    (0, mkFusedSubGraph "0_" 0 wP0, [("w", wTensorW)]) ∈
      (applyImpl wCo wRo wBp wG false 0 []).1.fusedResults ∧
    ((applyImpl wCo wRo wBp wG false 0 []).1.graph.getInitializedTensor "w" = none ∧
      assocLookup [("w", wTensorW)] "w" = some wTensorW) :=
  ⟨by decide, by decide, by decide,
    claim_c1_exclusive_transfer wCo wRo wBp wG false 0 [] "w" wTensorW 0
      (mkFusedSubGraph "0_" 0 wP0) [("w", wTensorW)]
      (applyImpl wCo wRo wBp wG false 0 []).1 (applyImpl wCo wRo wBp wG false 0 []).2
      (by decide) (by decide) rfl (by decide)⟩

theorem claim_c2_witness :
    wG.getInitializedTensor "s" = some wTensorS ∧
    1 ∈ refsOf wG (wBp wG).1 "s" (List.range (wBp wG).1.length) ∧
    2 ∈ refsOf wG (wBp wG).1 "s" (List.range (wBp wG).1.length) ∧
    (1 : Nat) ≠ 2 ∧
    (applyImpl wCo wRo wBp wG false 0 []).1.graph.getInitializedTensor "s" =
      some wTensorS :=
  ⟨by decide, by decide, by decide, by decide,
    claim_c2_shared_kept wCo wRo wBp wG false 0 [] "s" wTensorS 1 2
      (applyImpl wCo wRo wBp wG false 0 []).1 (applyImpl wCo wRo wBp wG false 0 []).2
      (by decide) (by decide) (by decide) (by decide) rfl⟩

theorem claim_c7_witness :
    wG.getInitializedTensor "s" = some wTensorS ∧
    1 ∈ refsOf wG (wBp wG).1 "s" (List.range (wBp wG).1.length) ∧
    2 ∈ refsOf wG (wBp wG).1 "s" (List.range (wBp wG).1.length) ∧
    (1 : Nat) ≠ 2 ∧
    (wBp wG).1[1]? = some wP1 ∧
    "s" ∈ wP1.inputs ∧
    (1, mkFusedSubGraph "1_" 1 wP1, [("s", wTensorS)]) ∈
      (applyImpl wCo wRo wBp wG false 0 []).1.fusedResults ∧
    (("s" ∈ (wBp wG).2 →
        assocLookup [("s", wTensorS)] "s" = some wTensorS ∧
        (applyImpl wCo wRo wBp wG false 0 []).1.graph.getInitializedTensor "s" =
          some wTensorS) ∧
      ("s" ∉ (wBp wG).2 → assocLookup [("s", wTensorS)] "s" = none)) :=
  ⟨by decide, by decide, by decide, by decide, by decide, by decide, by decide,
    claim_c7_shared_copy wCo wRo wBp wG false 0 [] "s" wTensorS 1 2 1 wP1
      (mkFusedSubGraph "1_" 1 wP1) [("s", wTensorS)]
      (applyImpl wCo wRo wBp wG false 0 []).1 (applyImpl wCo wRo wBp wG false 0 []).2
      (by decide) (by decide) (by decide) (by decide) (by decide) (by decide) rfl
      (by decide)⟩

theorem claim_c5_witness :
    (0, mkFusedSubGraph "0_" 0 wP0, [("w", wTensorW)]) ∈
      (applyImpl wCo wRo wBp wG false 0 []).1.fusedResults ∧
    ((∃ p, (wBp wG).1[0]? = some p ∧
        (mkFusedSubGraph "0_" 0 wP0).metaDef.inputs = p.inputs ∧
        (mkFusedSubGraph "0_" 0 wP0).metaDef.outputs = p.outputs) ∧
      (∀ (pfx : String) (j : Nat) (q : GraphPartition) (l' : List Nat),
        mkFusedMetaDef pfx j { q with nodeIndices := l' } = mkFusedMetaDef pfx j q)) :=
  ⟨by decide,
    claim_c5_io_match wCo wRo wBp wG false 0 [] 0 (mkFusedSubGraph "0_" 0 wP0)
      [("w", wTensorW)]
      (applyImpl wCo wRo wBp wG false 0 []).1 (applyImpl wCo wRo wBp wG false 0 []).2
      rfl (by decide)⟩

theorem claim_c4_witness :
    applyImpl wCo wRo wBp wG false 0 [] =
      ((applyImpl wCo wRo wBp wG false 0 []).1,
        (applyImpl wCo wRo wBp wG false 0 []).2) ∧
    applyImpl wCo wRo wBp (applyImpl wCo wRo wBp wG false 0 []).1.graph false
        (applyImpl wCo wRo wBp wG false 0 []).1.counter [] =
      ((applyImpl wCo wRo wBp (applyImpl wCo wRo wBp wG false 0 []).1.graph false
          (applyImpl wCo wRo wBp wG false 0 []).1.counter []).1,
        (applyImpl wCo wRo wBp (applyImpl wCo wRo wBp wG false 0 []).1.graph false
          (applyImpl wCo wRo wBp wG false 0 []).1.counter []).2) ∧
    ((∀ x ∈ (applyImpl wCo wRo wBp wG false 0 []).1.fusedResults ++
        (applyImpl wCo wRo wBp (applyImpl wCo wRo wBp wG false 0 []).1.graph false
          (applyImpl wCo wRo wBp wG false 0 []).1.counter []).1.fusedResults,
        x.2.1.metaDef.domain = fusionNodeDomain ∧
        x.2.1.metaDef.sinceVersion = 1 ∧
        ∃ c, x.2.1.metaDef.name = mkFusedName c x.1) ∧
      List.Pairwise (fun a b => a.2.1.metaDef.name ≠ b.2.1.metaDef.name)
        ((applyImpl wCo wRo wBp wG false 0 []).1.fusedResults ++
          (applyImpl wCo wRo wBp (applyImpl wCo wRo wBp wG false 0 []).1.graph false
            (applyImpl wCo wRo wBp wG false 0 []).1.counter []).1.fusedResults)) :=
  ⟨rfl, rfl,
    claim_c4_unique_names wCo wCo wRo wRo wBp wBp wG false false 0 [] []
      (applyImpl wCo wRo wBp wG false 0 []).1
      (applyImpl wCo wRo wBp (applyImpl wCo wRo wBp wG false 0 []).1.graph false
        (applyImpl wCo wRo wBp wG false 0 []).1.counter []).1
      (applyImpl wCo wRo wBp wG false 0 []).2
      (applyImpl wCo wRo wBp (applyImpl wCo wRo wBp wG false 0 []).1.graph false
        (applyImpl wCo wRo wBp wG false 0 []).1.counter []).2
      rfl rfl⟩

theorem claim_c6_witness :
    applyImpl wCo wRo wBp wG false 0 [] =
      ((applyImpl wCo wRo wBp wG false 0 []).1,
        (applyImpl wCo wRo wBp wG false 0 []).2) ∧
    (∃ tail,
      (applyImpl wCo wRo wBp wG false 0 []).1.compileTrace =
        (applyImpl wCo wRo wBp wG false 0 []).1.fusedResults.map
          (fun x => x.2.1) ++ tail ∧
      ((applyImpl wCo wRo wBp wG false 0 []).2 = none → tail = []) ∧
      ((applyImpl wCo wRo wBp wG false 0 []).2 = some PassErr.compileFailed →
        ∃ sg, tail = [sg] ∧ wCo sg = false ∧
          sg ∉ (applyImpl wCo wRo wBp wG false 0 []).1.fusedResults.map
            (fun x => x.2.1)) ∧
      (applyImpl wCo wRo wBp wG false 0 []).1.compileTrace.Nodup ∧
      (∀ x ∈ (applyImpl wCo wRo wBp wG false 0 []).1.fusedResults,
        (applyImpl wCo wRo wBp wG false 0 []).1.compileTrace.count x.2.1 = 1)) :=
  ⟨rfl,
    claim_c6_single_compile wCo wRo wBp wG false 0 []
      (applyImpl wCo wRo wBp wG false 0 []).1
      (applyImpl wCo wRo wBp wG false 0 []).2 rfl⟩

theorem claim_c3_witness :
    (fusePartitionAndRegisterKernel (fun _ => false) wRo c3Part 0 c3Graph [] "0_"
        []).err = some PassErr.compileFailed ∧
    ((fusePartitionAndRegisterKernel (fun _ => false) wRo c3Part 0 c3Graph [] "0_"
        []).graph = c3Graph.beginFuseSubGraph (mkFusedSubGraph "0_" 0 c3Part) ∧
      (fusePartitionAndRegisterKernel (fun _ => false) wRo c3Part 0 c3Graph [] "0_"
        []).registry = []) :=
  ⟨by decide,
    claim_c3_no_rollback (fun _ => false) wRo c3Part 0 c3Graph [] "0_" []
      PassErr.compileFailed (by decide)⟩

theorem claim_c10_witness :
    (applyImpl wCo wRo wBp wG false 0 []).2 ≠ some PassErr.assertFailed :=
  claim_c10_assert_unreachable wCo wRo wBp wG false 0 []

/-- Supported-operator oracle for the example partitioner: plain-domain `Add`
nodes are supported; fusion-domain nodes never are. -/
def w8Supported : Node → Bool := fun nd =>
  (nd.domain != fusionNodeDomain) && (nd.opType == "Add")

/-- Indices of the supported nodes of a graph. -/
def w8Idxs (g : Graph) : List Nat :=
  (g.nodes.filter (fun pr => w8Supported pr.2)).map (fun pr => pr.1)

/-- The single partition produced by the example partitioner. -/
def w8Part (g : Graph) : GraphPartition :=
  { rootMergedIndex := 0, isDmlPartition := true, isDmlGraphPartition := true,
    inputs := [], outputs := [], nodeIndices := w8Idxs g }

/-- Example partitioner: one root-merged DML-graph partition holding every
supported node, or no partition when none is supported. -/
def w8Bp : Graph → List GraphPartition × List String := fun g =>
  if w8Idxs g = [] then ([], []) else ([w8Part g], [])

theorem w8_spec : PartitionerSpec w8Bp w8Supported := by
  refine ⟨?_, ?_, ?_⟩
  · intro g i p hp _ _ _
    simp only [w8Bp] at hp
    by_cases hne : w8Idxs g = []
    · rw [if_pos hne] at hp
      simp at hp
    · rw [if_neg hne] at hp
      match i, hp with
      | 0, hp =>
        simp only [List.getElem?_cons_zero, Option.some.injEq] at hp
        subst hp
        refine ⟨hne, ?_⟩
        intro idx hidx
        simp only [w8Part, w8Idxs, List.mem_map, List.mem_filter] at hidx
        obtain ⟨pr, ⟨hmem, hsup⟩, hidx1⟩ := hidx
        refine ⟨pr.2, ?_, hsup⟩
        rw [← hidx1]
        exact hmem
      | n + 1, hp =>
        simp at hp
  · intro g idx nd hmem hsup
    have hfil : (idx, nd) ∈ g.nodes.filter (fun pr => w8Supported pr.2) :=
      List.mem_filter.mpr ⟨hmem, hsup⟩
    have hidx : idx ∈ w8Idxs g := List.mem_map.mpr ⟨(idx, nd), hfil, rfl⟩
    have hne : w8Idxs g ≠ [] := List.ne_nil_of_mem hidx
    refine ⟨0, w8Part g, ?_, rfl, rfl, rfl, hidx⟩
    simp only [w8Bp]
    rw [if_neg hne]
    rfl
  · intro nd hdom
    simp only [w8Supported, hdom, bne_self_eq_false, Bool.false_and]

/-- Example graph for the idempotence instance: one supported node. -/
def w8G : Graph := { nodes := [(0, wNodeA)], initializers := [], nextNodeIndex := 1 }

theorem claim_c8_witness :
    PartitionerSpec w8Bp w8Supported ∧
    applyImpl wCo wRo w8Bp w8G false 0 [] =
      ((applyImpl wCo wRo w8Bp w8G false 0 []).1, none) ∧
    applyImpl wCo wRo w8Bp (applyImpl wCo wRo w8Bp w8G false 0 []).1.graph false
        (applyImpl wCo wRo w8Bp w8G false 0 []).1.counter [] =
      ((applyImpl wCo wRo w8Bp (applyImpl wCo wRo w8Bp w8G false 0 []).1.graph false
          (applyImpl wCo wRo w8Bp w8G false 0 []).1.counter []).1,
        (applyImpl wCo wRo w8Bp (applyImpl wCo wRo w8Bp w8G false 0 []).1.graph false
          (applyImpl wCo wRo w8Bp w8G false 0 []).1.counter []).2) ∧
    ((applyImpl wCo wRo w8Bp (applyImpl wCo wRo w8Bp w8G false 0 []).1.graph false
        (applyImpl wCo wRo w8Bp w8G false 0 []).1.counter []).1.graph =
      (applyImpl wCo wRo w8Bp w8G false 0 []).1.graph ∧
      (applyImpl wCo wRo w8Bp (applyImpl wCo wRo w8Bp w8G false 0 []).1.graph false
        (applyImpl wCo wRo w8Bp w8G false 0 []).1.counter []).1.fusedResults = [] ∧
      (applyImpl wCo wRo w8Bp (applyImpl wCo wRo w8Bp w8G false 0 []).1.graph false
        (applyImpl wCo wRo w8Bp w8G false 0 []).1.counter []).1.extractTrace = [] ∧
      (applyImpl wCo wRo w8Bp (applyImpl wCo wRo w8Bp w8G false 0 []).1.graph false
        (applyImpl wCo wRo w8Bp w8G false 0 []).1.counter []).2 = none) :=
  ⟨w8_spec, rfl, rfl,
    claim_c8_idempotent wCo wCo wRo wRo w8Bp w8Supported w8G false false 0 [] []
      (applyImpl wCo wRo w8Bp w8G false 0 []).1
      (applyImpl wCo wRo w8Bp (applyImpl wCo wRo w8Bp w8G false 0 []).1.graph false
        (applyImpl wCo wRo w8Bp w8G false 0 []).1.counter []).1
      (applyImpl wCo wRo w8Bp (applyImpl wCo wRo w8Bp w8G false 0 []).1.graph false
        (applyImpl wCo wRo w8Bp w8G false 0 []).1.counter []).2
      w8_spec rfl rfl⟩
